import Mathlib

/-!
# Verification of the goban core engine

A shallow embedding of the Go board engine (`src/pieces/goban.rs`,
`src/rules/game.rs`) together with proofs about its placement, capture,
ko, suicide, superko and eye-heuristic behaviour.

The repository ships `goban.rs` and `game.rs`; the leaf modules
(`stones.rs`, `chain.rs`, `util/coord.rs`, `zobrist.rs`) are referenced
but their sources are not present, so they are modelled from the
specification (each such definition carries a doc comment starting with
`Modelled from the spec:`).
-/

set_option maxRecDepth 4000

/-- `Color`: the two stone colors. Modelled from the spec: a two-valued
tag {Black, White} (`stones.rs` is not in the sources). -/
inductive Color where
  | black
  | white
deriving DecidableEq

/-- Negation of a color (Rust `!` on `Color`). -/
def Color.not : Color → Color
  | .black => .white
  | .white => .black

/-- Modelled from the spec: an "optional color" is {Black, White, Empty};
`EMPTY` is `none`. -/
abbrev MaybeColor := Option Color

/-- Modelled from the spec: a coordinate is a `(row, col)` pair of small
unsigned integers. -/
abbrev Coord := Nat × Nat

/-- Modelled from the spec: a size is a `(height, width)` pair. -/
abbrev Size := Nat × Nat

/-- `BOARD_MAX_LENGTH = 19 * 19` from `goban.rs`. -/
def BOARD_MAX_LENGTH : Nat := 361

/-- Modelled from the spec: conversion `(row, col) ↦ row * width + col`
(`util/coord.rs` is not in the sources). -/
def two_to_1dim (size : Size) (c : Coord) : Nat :=
  c.1 * size.2 + c.2

/-- Modelled from the spec: conversion of a linear index back to
`(row, col)`. -/
def one_to_2dim (size : Size) (i : Nat) : Coord :=
  (i / size.2, i % size.2)

/-- Modelled from the spec: a coordinate is valid when it lies inside the
board rectangle. -/
def is_coord_valid (size : Size) (c : Coord) : Bool :=
  c.1 < size.1 && c.2 < size.2

/-- Modelled from the spec: the four orthogonal neighbor coordinates.
The source works on `u8` coordinates, so decrements wrap modulo 256;
wrapped values are later rejected by `is_coord_valid`. -/
def neighbor_coords (c : Coord) : List Coord :=
  [((c.1 + 255) % 256, c.2), ((c.1 + 1) % 256, c.2),
   (c.1, (c.2 + 255) % 256), (c.1, (c.2 + 1) % 256)]

/-- Modelled from the spec: the four diagonal corner coordinates, with the
same `u8` wrapping convention as `neighbor_coords`. -/
def corner_points (c : Coord) : List Coord :=
  [((c.1 + 255) % 256, (c.2 + 255) % 256), ((c.1 + 255) % 256, (c.2 + 1) % 256),
   ((c.1 + 1) % 256, (c.2 + 255) % 256), ((c.1 + 1) % 256, (c.2 + 1) % 256)]

/-- Modelled from the spec: the Zobrist table is a fixed table of
2 × 361 64-bit values indexed by (board index, color) (`zobrist.rs` is
not in the sources); we fix a concrete deterministic table. -/
def index_zobrist (i : Nat) (c : Color) : Nat :=
  ((2 * i + (match c with | .black => 0 | .white => 1)) * 0x9E3779B97F4A7C15 + 0x2545F4914F6CDD1D) % 2 ^ 64

/-- Modelled from the spec: a liberty set is a bitset over board indices;
we model it as a finite set of indices. -/
abbrev Liberties := Finset Nat

/-- Modelled from the spec: a `Chain` record — color, origin/last indices
into the next-stone linkage, liberty set, used flag and stone count
(`chain.rs` is not in the sources). -/
structure Chain where
  color : Color
  origin : Nat
  last : Nat
  liberties : Liberties
  used : Bool
  num_stones : Nat
deriving DecidableEq

instance : Inhabited Chain :=
  ⟨⟨Color.black, 0, 0, ∅, false, 0⟩⟩

/-- Modelled from the spec: create a single-stone chain with a given
liberty set. -/
def Chain.new_with_liberties (color : Color) (origin : Nat) (liberties : Liberties) : Chain :=
  { color := color, origin := origin, last := origin, liberties := liberties,
    used := true, num_stones := 1 }

/-- Modelled from the spec: clear one liberty bit. -/
def Chain.remove_liberty (ch : Chain) (i : Nat) : Chain :=
  { ch with liberties := ch.liberties.erase i }

/-- Modelled from the spec: set one liberty bit. -/
def Chain.add_liberty (ch : Chain) (i : Nat) : Chain :=
  { ch with liberties := insert i ch.liberties }

/-- Modelled from the spec: bitwise-or a slice of liberties into the
chain's liberty set. -/
def Chain.union_liberties_slice (ch : Chain) (libs : List Nat) : Chain :=
  { ch with liberties := ch.liberties ∪ libs.toFinset }

/-- Modelled from the spec: `number_of_liberties` is the popcount of the
liberty bitset. -/
def Chain.number_of_liberties (ch : Chain) : Nat :=
  ch.liberties.card

/-- Modelled from the spec: a chain is dead when its liberty popcount is
zero. -/
def Chain.is_dead (ch : Chain) : Bool :=
  ch.liberties.card == 0

/-- Modelled from the spec: a chain is in atari when its liberty popcount
is one. -/
def Chain.is_atari (ch : Chain) : Bool :=
  ch.liberties.card == 1

/-- `Point`: a coordinate with an optional color (`stones.rs`, modelled
from the spec). -/
structure Point where
  coord : Coord
  color : MaybeColor
deriving DecidableEq

/-- A point is empty when it has no color. -/
def Point.is_empty (p : Point) : Bool :=
  p.color == none

/-- `Stone`: a coordinate with a (non-empty) color (`stones.rs`, modelled
from the spec). -/
structure Stone where
  coord : Coord
  color : Color
deriving DecidableEq

/-- One step of `CircularRenIter` (`util.rs`, modelled from the spec:
start at the origin, advance via `next_stone`, stop when the index equals
the origin again); fuel-bounded so the traversal is total. -/
def circularRenAux (next : List Nat) (origin : Nat) : Nat → Nat → List Nat
  | _, 0 => []
  | cur, fuel + 1 =>
    if cur = origin then []
    else cur :: circularRenAux next origin (next.getD cur 0) fuel

/-- Modelled from the spec: the list of stones of a chain, obtained by
following the `next_stone` cycle from `origin` until it closes. -/
def chain_stones (next : List Nat) (origin : Nat) : List Nat :=
  origin :: circularRenAux next origin (next.getD origin 0) BOARD_MAX_LENGTH

/-- The goban state (`goban.rs`): chain pool, board map from cell to
chain slot, circular next-stone linkage, size and running Zobrist hash. -/
structure Goban where
  chains : List Chain
  board : List (Option Nat)
  next_stone : List Nat
  size : Size
  zobrist_hash : Nat
deriving DecidableEq

/-- `Goban::new` (`goban.rs`): empty board of the given size. -/
def Goban.new (size : Size) : Goban :=
  { size := size, zobrist_hash := 0,
    board := List.replicate BOARD_MAX_LENGTH none,
    next_stone := List.replicate BOARD_MAX_LENGTH 0,
    chains := [] }

/-- `Goban::neighbors_coords` (`goban.rs`): in-bounds neighbor
coordinates. -/
def Goban.neighbors_coords (g : Goban) (c : Coord) : List Coord :=
  (neighbor_coords c).filter (fun p => is_coord_valid g.size p)

/-- `Goban::neighbors_idx` (`goban.rs`): in-bounds neighbor board
indexes. -/
def Goban.neighbors_idx (g : Goban) (i : Nat) : List Nat :=
  ((g.neighbors_coords (one_to_2dim g.size i)).filter
    (fun c => is_coord_valid g.size c)).map (fun c => two_to_1dim g.size c)

/-- `Goban::get_color` (`goban.rs`): board map followed by chain color. -/
def Goban.get_color (g : Goban) (c : Coord) : MaybeColor :=
  (g.board.getD (two_to_1dim g.size c) none).map
    (fun id => (g.chains.getD id default).color)

/-- `Goban::get_point` (`goban.rs`). -/
def Goban.get_point (g : Goban) (c : Coord) : Point :=
  { coord := c,
    color := (g.board.getD (two_to_1dim g.size c) none).map
      (fun id => (g.chains.getD id default).color) }

/-- `Goban::get_neighbors_points` (`goban.rs`): all in-bounds neighbors
with their (possibly empty) colors. -/
def Goban.get_neighbors_points (g : Goban) (c : Coord) : List Point :=
  (g.neighbors_coords c).map (fun p => { coord := p, color := g.get_color p })

/-- `Goban::get_neighbors_stones` (`goban.rs`): in-bounds neighbors that
carry a stone. -/
def Goban.get_neighbors_stones (g : Goban) (c : Coord) : List Stone :=
  (g.get_neighbors_points c).filterMap
    (fun p => match p.color with
      | none => none
      | some col => some { coord := p.coord, color := col })

/-- `Goban::get_neighbors_chain_indexes` (`goban.rs`): chain slots of the
occupied neighbors (duplicates possible). -/
def Goban.get_neighbors_chain_indexes (g : Goban) (c : Coord) : List Nat :=
  ((g.neighbors_coords c).map (fun p => two_to_1dim g.size p)).filterMap
    (fun i => g.board.getD i none)

/-- `Goban::get_neighbors_chains` (`goban.rs`): chains adjacent to a
coordinate (duplicates possible). -/
def Goban.get_neighbors_chains (g : Goban) (c : Coord) : List Chain :=
  (g.get_neighbors_chain_indexes c).map (fun id => g.chains.getD id default)

/-- `Goban::get_neighbors_chains_ids_by_board_idx` (`goban.rs`). -/
def Goban.get_neighbors_chains_ids_by_board_idx (g : Goban) (i : Nat) : List Nat :=
  (g.neighbors_idx i).filterMap (fun j => g.board.getD j none)

/-- `Goban::get_liberties` (`goban.rs`): empty in-bounds neighbors. -/
def Goban.get_liberties (g : Goban) (c : Coord) : List Coord :=
  (g.neighbors_coords c).filter (fun p => g.get_color p == none)

/-- `Goban::has_liberties` (`goban.rs`). -/
def Goban.has_liberties (g : Goban) (c : Coord) : Bool :=
  !(g.get_liberties c).isEmpty

/-- `Goban::get_empty_idx` (`goban.rs`): `board.iter().enumerate()`
keeping the indexes whose entry is mapped to a chain id. -/
def Goban.get_empty_idx (g : Goban) : List Nat :=
  g.board.enum.filterMap (fun p => p.2.map (fun _ => p.1))

/-- `Goban::get_empty_coords` (`goban.rs`): empty coordinates of the
first `height * width` entries of the board. -/
def Goban.get_empty_coords (g : Goban) : List Coord :=
  ((g.board.take (g.size.1 * g.size.2)).enum.filterMap
    (fun p => match p.2 with
      | none => some (one_to_2dim g.size p.1)
      | some _ => none))

/-- `Goban::get_stones` (`goban.rs`): occupied cells as stones in
row-major order of the backing array. -/
def Goban.get_stones (g : Goban) : List Stone :=
  g.board.enum.filterMap (fun p =>
    p.2.map (fun id =>
      { coord := one_to_2dim g.size p.1, color := (g.chains.getD id default).color }))

/-- `Goban::to_vec` (`goban.rs`): the backing board array mapped to
optional colors. -/
def Goban.to_vec (g : Goban) : List MaybeColor :=
  g.board.map (fun cell => cell.map (fun id => (g.chains.getD id default).color))

/-- `Goban::update_chain_indexes_in_board` (`goban.rs`): rewrite the board
map of every stone in the chain's cycle to the chain's slot. -/
def Goban.update_chain_indexes_in_board (g : Goban) (id : Nat) : Goban :=
  { g with board :=
      ((chain_stones g.next_stone (g.chains.getD id default).origin).foldl
        (fun b s => b.set s (some id)) g.board) }

/-- `Goban::create_chain` (`goban.rs`): append a fresh single-stone chain
rooted at `origin` and point the board map at it. -/
def Goban.create_chain (g : Goban) (origin : Nat) (color : Color) (liberties : List Nat) :
    Goban × Nat :=
  let ch := Chain.new_with_liberties color origin liberties.toFinset
  let g1 : Goban :=
    { g with next_stone := g.next_stone.set origin origin, chains := g.chains ++ [ch] }
  let idx := g1.chains.length - 1
  (g1.update_chain_indexes_in_board idx, idx)

/-- `Goban::add_stone_to_chain` (`goban.rs`): splice a new stone into a
chain's circular linkage, keeping `origin` minimal. -/
def Goban.add_stone_to_chain (g : Goban) (id : Nat) (stone : Nat) : Goban :=
  let ch := g.chains.getD id default
  if stone < ch.origin then
    { g with
      next_stone := (g.next_stone.set stone ch.origin).set ch.last stone,
      chains := g.chains.set id { ch with origin := stone, num_stones := ch.num_stones + 1 } }
  else
    { g with
      next_stone := (g.next_stone.set ch.last stone).set stone ch.origin,
      chains := g.chains.set id { ch with last := stone, num_stones := ch.num_stones + 1 } }

/-- `Goban::put_chain_in_bin` (`goban.rs`): tombstone a chain slot. -/
def Goban.put_chain_in_bin (g : Goban) (id : Nat) : Goban :=
  { g with chains := g.chains.set id { g.chains.getD id default with used := false } }

/-- `Goban::merge_strings` (`goban.rs`): union liberties, swap the two
tails' successors, keep the minimal origin, add the stone counts, rewrite
the board map of the merged cycle and retire the absorbed slot. -/
def Goban.merge_strings (g : Goban) (id1 id2 : Nat) : Goban :=
  let ch1 := g.chains.getD id1 default
  let ch2 := g.chains.getD id2 default
  let ch1' : Chain :=
    { ch1 with
      liberties := ch1.liberties ∪ ch2.liberties,
      origin := if ch1.origin > ch2.origin then ch2.origin else ch1.origin,
      last := if ch1.origin > ch2.origin then ch1.last else ch2.last,
      num_stones := ch1.num_stones + ch2.num_stones }
  let next' :=
    (g.next_stone.set ch1.last (g.next_stone.getD ch2.last 0)).set ch2.last
      (g.next_stone.getD ch1.last 0)
  let g1 : Goban := { g with chains := g.chains.set id1 ch1', next_stone := next' }
  (g1.update_chain_indexes_in_board id1).put_chain_in_bin id2

/-- Neighbor classification of `Goban::push_wth_feedback` (`goban.rs`):
partition the in-bounds neighbors into deduplicated same-color chain ids,
deduplicated opposite-color chain ids and empty neighbor indexes. -/
def Goban.classify_neighbors (g : Goban) (color : Color) (neigh : List Nat) :
    List Nat × List Nat × List Nat :=
  neigh.foldl
    (fun acc n =>
      let (same, opp, libs) := acc
      match g.board.getD n none with
      | some id =>
        if (g.chains.getD id default).color = color then
          if id ∈ same then (same, opp, libs) else (same ++ [id], opp, libs)
        else
          if id ∈ opp then (same, opp, libs) else (same, opp ++ [id], libs)
      | none => (same, opp, libs ++ [n]))
    ([], [], [])

/-- Opposite-liberty decrement of `Goban::push_wth_feedback` (`goban.rs`):
remove the pushed index from each adjacent opposite chain and collect the
chains that die. -/
def Goban.remove_opposite_liberties (g : Goban) (p : Nat) (opp : List Nat) :
    Goban × List Nat :=
  opp.foldl
    (fun acc id =>
      let (g, dead) := acc
      let ch := g.chains.getD id default
      if ch.used then
        let ch' := ch.remove_liberty p
        let g' : Goban := { g with chains := g.chains.set id ch' }
        if ch'.is_dead then (g', dead ++ [id]) else (g', dead)
      else (g, dead))
    (g, [])

/-- Weighted merge fold of `Goban::push_wth_feedback` (`goban.rs`): keep
merging into whichever of the two current roots has the larger liberty
count. -/
def Goban.merge_fold (g : Goban) (to_merge : Nat) (same : List Nat) : Goban × Nat :=
  same.foldl
    (fun acc adj =>
      let (g, t) := acc
      if (g.chains.getD adj default).number_of_liberties <
          (g.chains.getD t default).number_of_liberties then
        (g.merge_strings t adj, t)
      else
        (g.merge_strings adj t, adj))
    (g, to_merge)

/-- `Goban::push_wth_feedback` (`goban.rs`): place a stone, returning the
opposite chains left without liberties and the chain slot now holding the
stone, together with the updated goban. -/
def Goban.push_wth_feedback (g : Goban) (point : Coord) (color : Color) :
    (List Nat × Nat) × Goban :=
  let p := two_to_1dim g.size point
  let (same, opp, libs) := g.classify_neighbors color (g.neighbors_idx p)
  let (g1, dead) := g.remove_opposite_liberties p opp
  -- the classification reads only `board`/`chains`, unchanged by the
  -- liberty decrement, so computing it on `g` matches the source order
  let (g2, updated) :=
    match same with
    | [] => g1.create_chain p color libs
    | [only] =>
      let ch := ((g1.chains.getD only default).remove_liberty p).union_liberties_slice libs
      let ga : Goban := { g1 with chains := g1.chains.set only ch }
      let gb := ga.add_stone_to_chain only p
      ({ gb with board := gb.board.set p (some only) }, only)
    | _ =>
      let (ga, t0) := g1.create_chain p color libs
      let (gb, t) := ga.merge_fold t0 same
      ({ gb with chains := gb.chains.set t ((gb.chains.getD t default).remove_liberty p) }, t)
  ((dead, updated),
    { g2 with zobrist_hash := Nat.xor g2.zobrist_hash (index_zobrist p color) })

/-- `Goban::push` (`goban.rs`): placement discarding the feedback. -/
def Goban.push (g : Goban) (point : Coord) (color : Color) : Goban :=
  (g.push_wth_feedback point color).2

/-- `Goban::push_many` (`goban.rs`). -/
def Goban.push_many (g : Goban) (points : List Coord) (color : Color) : Goban :=
  points.foldl (fun g p => g.push p color) g

/-- `Goban::from_array` (`goban.rs`): infer the side length as the
integer square root of the array length, then push every non-empty cell
in row-major order. -/
def Goban.from_array (stones : List MaybeColor) : Goban :=
  let size := stones.length.sqrt
  let g := Goban.new (size, size)
  (stones.enum.filterMap
      (fun p => p.2.map (fun color => (one_to_2dim (size, size) p.1, color)))).foldl
    (fun g cc => g.push cc.1 cc.2) g

/-- One iteration of the removal loop of `Goban::remove_chain`
(`goban.rs`): restore the liberty at `s` on every adjacent chain other
than the removed one, undo the hash contribution and clear the cell. -/
def Goban.remove_chain_step (g : Goban) (r : Nat) (color : Color) (s : Nat) : Goban :=
  let neighbor_ids := (g.get_neighbors_chains_ids_by_board_idx s).filter (fun id => id ≠ r)
  let chains' := neighbor_ids.foldl
    (fun cs n => cs.set n ((cs.getD n default).add_liberty s)) g.chains
  { g with
    chains := chains',
    zobrist_hash := Nat.xor g.zobrist_hash (index_zobrist s color),
    board := g.board.set s none }

/-- `Goban::remove_chain` (`goban.rs`): traverse the chain's cycle,
restoring liberties and clearing cells, then tombstone the slot. -/
def Goban.remove_chain (g : Goban) (r : Nat) : Goban :=
  let color := (g.chains.getD r default).color
  let stones := chain_stones g.next_stone (g.chains.getD r default).origin
  (stones.foldl (fun g s => g.remove_chain_step r color s) g).put_chain_in_bin r

/-- One iteration of the dead-chain loop of
`Goban::remove_captured_stones_aux` (`goban.rs`), with the loop-invariant
`only_one_ren_removed` test abstracted as `oo`. -/
def Goban.remove_captured_stones_step (color : Color) (oo : Prop) [Decidable oo]
    (acc : Goban × (Nat × Nat) × Option Coord) (dead_ren_idx : Nat) :
    Goban × (Nat × Nat) × Option Coord :=
  let (g, stones_removed, ko_point) := acc
  let dead_ren := g.chains.getD dead_ren_idx default
  let ko_point :=
    if dead_ren.num_stones = 1 ∧ oo then
      some (one_to_2dim g.size dead_ren.origin)
    else ko_point
  let stones_removed :=
    match color with
    | .white => (stones_removed.1, stones_removed.2 + dead_ren.num_stones)
    | .black => (stones_removed.1 + dead_ren.num_stones, stones_removed.2)
  (g.remove_chain dead_ren_idx, stones_removed, ko_point)

/-- `Goban::remove_captured_stones_aux` (`goban.rs`): retire the dead
chains, count prisoners, compute the ko point, and (when allowed) retire
a self-killed placement. -/
def Goban.remove_captured_stones_aux (g : Goban) (color : Color) (suicide_allowed : Bool)
    (prisoners : Nat × Nat) (dead_rens_indices : List Nat) (added_ren : Nat) :
    ((Nat × Nat) × Option Coord) × Goban :=
  let (g1, stones_removed, ko_point) :=
    dead_rens_indices.foldl
      (Goban.remove_captured_stones_step color (dead_rens_indices.length = 1))
      (g, prisoners, none)
  let num_stones := (g1.chains.getD added_ren default).num_stones
  if suicide_allowed ∧ num_stones = 0 then
    let g2 := g1.remove_chain added_ren
    let stones_removed :=
      match color with
      | .black => (stones_removed.1, stones_removed.2 + num_stones)
      | .white => (stones_removed.1 + num_stones, stones_removed.2)
    ((stones_removed, none), g2)
  else
    ((stones_removed, ko_point), g1)

/-- Modelled from the spec: the set of active illegality flags drawn from
{Ko, Suicide, Superko, FillEye} (`rules/mod.rs` is not in the sources). -/
structure IllegalRules where
  ko : Bool
  suicide : Bool
  superko : Bool
  filleye : Bool
deriving DecidableEq

/-- Modelled from the spec: the rule configuration consumed by the core;
only the illegality flags are relevant to the embedded operations. -/
structure Rule where
  flag_illegal : IllegalRules
deriving DecidableEq

/-- `PlayError` (`rules/mod.rs`, modelled from the spec §7): error kinds
surfaced by the legality layer. -/
inductive PlayError where
  | gamePaused
  | pointNotEmpty
  | ko
  | suicide
  | fillEye
deriving DecidableEq

/-- `Move` (`rules/mod.rs`, modelled from the spec): pass, play at a
coordinate, or resign. -/
inductive Move where
  | pass
  | play (x y : Nat)
  | resign (player : Color)
deriving DecidableEq

/-- `EndGame` outcomes reachable through the embedded operations. -/
inductive EndGame where
  | winnerByResign (player : Color)
deriving DecidableEq

/-- The `Game` state (`game.rs`): goban, pass counter, prisoners, turn,
rule, set of previously reached position hashes, last hash and ko point
(the optional move history feature is compiled out). -/
structure Game where
  goban : Goban
  passes : Nat
  prisoners : Nat × Nat
  outcome : Option EndGame
  turn : Color
  rule : Rule
  handicap : Nat
  last_hash : Nat
  hashes : Finset Nat
  ko_point : Option Coord
deriving DecidableEq

/-- `Game::new` (`game.rs`). -/
def Game.new (size : Size) (rule : Rule) : Game :=
  { goban := Goban.new size, turn := Color.black, prisoners := (0, 0), passes := 0,
    outcome := none, rule := rule, handicap := 0, hashes := ∅, last_hash := 0,
    ko_point := none }

/-- `Game::will_capture` (`game.rs`): true when some adjacent
opposite-color chain is in atari. -/
def Game.will_capture (g : Game) (point : Coord) : Bool :=
  ((g.goban.get_neighbors_chains point).filter
    (fun ch => ch.color ≠ g.turn)).any (fun ch => ch.is_atari)

/-- `Game::check_ko` (`game.rs`): the move coordinate equals the stored
ko point. -/
def Game.check_ko (g : Game) (stone : Stone) : Bool :=
  g.ko_point == some stone.coord

/-- `Game::remove_captured_stones` (`game.rs`): resolve captures through
the goban and store the new prisoners and ko point. -/
def Game.remove_captured_stones (g : Game) (dead_chains : List Nat) (added_chain : Nat) :
    Game :=
  let res := g.goban.remove_captured_stones_aux g.turn (!g.rule.flag_illegal.suicide)
    g.prisoners dead_chains added_chain
  { g with goban := res.2, prisoners := res.1.1, ko_point := res.1.2 }

/-- `Game::play` (`game.rs`): execute a pass, a placement with capture
resolution, or a resignation. -/
def Game.play (g : Game) (m : Move) : Game :=
  match m with
  | .pass => { g with turn := g.turn.not, passes := g.passes + 1 }
  | .play x y =>
    let hash := g.goban.zobrist_hash
    let g1 : Game := { g with last_hash := hash, hashes := insert hash g.hashes }
    let res := g1.goban.push_wth_feedback (x, y) g1.turn
    let g2 : Game := { g1 with goban := res.2, ko_point := none }
    let g3 := g2.remove_captured_stones res.1.1 res.1.2
    { g3 with turn := g3.turn.not, passes := 0 }
  | .resign player => { g with outcome := some (.winnerByResign player) }

/-- `Game::play_for_verification` (`game.rs`): clone the goban, execute
placement plus capture resolution, and return the resulting hash. -/
def Game.play_for_verification (g : Game) (c : Coord) : Nat :=
  let test_goban := g.goban
  let res := test_goban.push_wth_feedback c g.turn
  (res.2.remove_captured_stones_aux g.turn (!g.rule.flag_illegal.suicide) g.prisoners
    res.1.1 res.1.2).2.zobrist_hash

/-- `Game::check_superko` (`game.rs`): guarded speculative-replay check
against the set of previously reached hashes. -/
def Game.check_superko (g : Game) (stone : Stone) : Bool :=
  if g.last_hash = 0 ∨ g.hashes.card ≤ 2 ∨ !g.will_capture stone.coord then false
  else g.check_ko stone || decide (g.play_for_verification stone.coord ∈ g.hashes)

/-- `Game::check_suicide` (`game.rs`): no liberty at the coordinate and
no neighbor chain that either joins a non-atari friendly chain or
captures an atari enemy chain. -/
def Game.check_suicide (g : Game) (stone : Stone) : Bool :=
  if g.goban.has_liberties stone.coord then false
  else
    !((g.goban.get_neighbors_chains stone.coord).any (fun ch =>
      if ch.color = stone.color then !ch.is_atari else ch.is_atari))

/-- `Game::helper_check_eye` (`game.rs`): count of allied and off-board
diagonal corners. -/
def Game.helper_check_eye (g : Game) (point : Coord) (color : Color) : Nat × Nat :=
  (corner_points point).foldl
    (fun acc p =>
      if is_coord_valid g.goban.size p then
        if g.goban.get_color p = some color then (acc.1 + 1, acc.2) else acc
      else (acc.1, acc.2 + 1))
    (0, 0)

/-- The corner scan of `Game::check_eye` (`game.rs`): walk the empty
in-bounds diagonal corners; abort with `false` at a corner touching an
enemy stone, succeed at a corner whose corner count is 3 or 2. -/
def Game.check_eye_loop (g : Game) (color : Color) : List Coord → Bool
  | [] => false
  | c :: rest =>
    if (g.goban.get_neighbors_stones c).any (fun st => st.color ≠ color) then false
    else
      let (ca, cof) := g.helper_check_eye c color
      if ca + cof = 3 ∨ ca + cof = 2 then true
      else g.check_eye_loop color rest

/-- `Game::check_eye` (`game.rs`): the eye-shape heuristic used to prune
move generation. -/
def Game.check_eye (g : Game) (stone : Stone) : Bool :=
  if (g.goban.get_color stone.coord).isSome then false
  else if (g.goban.get_neighbors_points stone.coord).any
      (fun p => p.color ≠ some stone.color) then false
  else
    let (ca, cof) := g.helper_check_eye stone.coord stone.color
    let corners := ca + cof
    if corners = 4 then true
    else if corners = 3 ∨ corners = 2 then
      g.check_eye_loop stone.color
        (((corner_points stone.coord).filter
          (fun p => is_coord_valid g.goban.size p)).filter
          (fun p => (g.goban.get_point p).is_empty))
    else false

/-- `Game::check_point_by` (`game.rs`): the legality predicate for a
given flag set. -/
def Game.check_point_by (g : Game) (point : Coord) (illegal_rules : IllegalRules) :
    Option PlayError :=
  let stone : Stone := { coord := point, color := g.turn }
  if !(g.goban.get_point point).is_empty then some .pointNotEmpty
  else if illegal_rules.ko && g.check_ko stone then some .ko
  else if illegal_rules.suicide && g.check_suicide stone then some .suicide
  else if illegal_rules.filleye && g.check_eye stone then some .fillEye
  else if illegal_rules.superko && g.check_superko stone then some .ko
  else none

/-- `Game::check_point` (`game.rs`). -/
def Game.check_point (g : Game) (point : Coord) : Option PlayError :=
  g.check_point_by point g.rule.flag_illegal

/-- `Game::try_play` (`game.rs`): validate, then play; on failure the
(already mutated) state is returned unchanged alongside the error. -/
def Game.try_play (g : Game) (m : Move) : Option PlayError × Game :=
  if g.passes = 2 then (some .gamePaused, g)
  else
    match m with
    | .play x y =>
      if g.goban.get_color (x, y) ≠ none then (some .pointNotEmpty, g)
      else
        match g.check_point (x, y) with
        | some c => (some c, g)
        | none => (none, g.play (.play x y))
    | .pass => (none, g.play .pass)
    | .resign p => (none, g.play (.resign p))

/-- `Game::try_play_color` (`game.rs`): overwrite the turn with the given
color, then delegate to `try_play` (the turn is not undone on failure). -/
def Game.try_play_color (g : Game) (color : Color) (m : Move) : Option PlayError × Game :=
  Game.try_play { g with turn := color } m

/-! ## Basic list access lemmas -/

theorem getD_set_self {α : Type} (l : List α) (i : Nat) (v d : α) (h : i < l.length) :
    (l.set i v).getD i d = v := by
  simp [List.getD, List.getElem?_set, h]

theorem getD_set_ne {α : Type} (l : List α) (i j : Nat) (v d : α) (h : i ≠ j) :
    (l.set i v).getD j d = l.getD j d := by
  simp [List.getD, List.getElem?_set, h]

theorem getD_replicate {α : Type} (n i : Nat) (v d : α) :
    ((List.replicate n v).getD i d) = if i < n then v else d := by
  by_cases h : i < n
  · simp [List.getD, List.getElem?_replicate, h]
  · have hlen : (List.replicate n v).length ≤ i := by
      simpa using Nat.le_of_not_lt h
    simp [List.getD, List.getElem?_eq_none hlen, h]

theorem getD_eq_default_of_le {α : Type} (l : List α) (i : Nat) (d : α)
    (h : l.length ≤ i) : l.getD i d = d := by
  simp [List.getD, List.getElem?_eq_none h]

theorem lt_length_of_getD_ne {α : Type} [DecidableEq α] (l : List α) (i : Nat) (d : α)
    (h : l.getD i d ≠ d) : i < l.length := by
  by_contra hc
  exact h (getD_eq_default_of_le l i d (Nat.le_of_not_lt hc))

/-! ## XOR folding and the hash of a board -/

theorem nxor_comm (a b : Nat) : Nat.xor a b = Nat.xor b a := Nat.xor_comm a b

theorem nxor_assoc (a b c : Nat) : Nat.xor (Nat.xor a b) c = Nat.xor a (Nat.xor b c) :=
  Nat.xor_assoc a b c

theorem nxor_self (a : Nat) : Nat.xor a a = 0 := Nat.xor_self a

theorem nxor_zero (a : Nat) : Nat.xor a 0 = a := Nat.xor_zero a

theorem zero_nxor (a : Nat) : Nat.xor 0 a = a := Nat.zero_xor a

theorem nxor_cancel_right (a b : Nat) : Nat.xor (Nat.xor a b) b = a := by
  rw [nxor_assoc, nxor_self, nxor_zero]

instance : Std.Commutative Nat.xor := ⟨Nat.xor_comm⟩

instance : Std.Associative Nat.xor := ⟨Nat.xor_assoc⟩

/-- The color carried by a cell of the board (through the chain pool). -/
def cellColor (g : Goban) (i : Nat) : Option Color :=
  (g.board.getD i none).map (fun id => (g.chains.getD id default).color)

/-- The Zobrist contribution of one cell. -/
def cellContrib (g : Goban) (i : Nat) : Nat :=
  match cellColor g i with
  | some c => index_zobrist i c
  | none => 0

/-- The XOR over all occupied cells of `zobrist[i, color(i)]`. -/
def hashOfBoard (g : Goban) : Nat :=
  (Finset.range BOARD_MAX_LENGTH).fold Nat.xor 0 (cellContrib g)

theorem xor_fold_congr {s : Finset Nat} {f f' : Nat → Nat}
    (h : ∀ j ∈ s, f' j = f j) : s.fold Nat.xor 0 f' = s.fold Nat.xor 0 f :=
  Finset.fold_congr h

theorem xor_fold_update {f f' : Nat → Nat} {i n : Nat} (hi : i < n)
    (h : ∀ j, j ≠ i → f' j = f j) :
    (Finset.range n).fold Nat.xor 0 f' =
      Nat.xor (Nat.xor ((Finset.range n).fold Nat.xor 0 f) (f i)) (f' i) := by
  have hmem : i ∈ Finset.range n := Finset.mem_range.2 hi
  have hins : Finset.range n = insert i ((Finset.range n).erase i) :=
    (Finset.insert_erase hmem).symm
  have hnot : i ∉ (Finset.range n).erase i := Finset.not_mem_erase i _
  have herase : ((Finset.range n).erase i).fold Nat.xor 0 f' =
      ((Finset.range n).erase i).fold Nat.xor 0 f :=
    xor_fold_congr (fun j hj => h j (Finset.ne_of_mem_erase hj))
  rw [hins, Finset.fold_insert hnot, Finset.fold_insert hnot, herase]
  generalize ((Finset.range n).erase i).fold Nat.xor 0 f = A
  show Nat.xor (f' i) A = Nat.xor (Nat.xor (Nat.xor (f i) A) (f i)) (f' i)
  rw [nxor_comm (f i) A, nxor_cancel_right, nxor_comm A (f' i)]

/-- XOR of a list of values. -/
def xorList (l : List Nat) : Nat :=
  l.foldr Nat.xor 0

theorem xor_fold_mask :
    ∀ (S : List Nat) (f f' : Nat → Nat), S.Nodup →
      (∀ j, j ∉ S → f' j = f j) → (∀ j ∈ S, j < BOARD_MAX_LENGTH ∧ f' j = 0) →
      (Finset.range BOARD_MAX_LENGTH).fold Nat.xor 0 f' =
        Nat.xor ((Finset.range BOARD_MAX_LENGTH).fold Nat.xor 0 f) (xorList (S.map f))
  | [], f, f', _, hoff, _ => by
    have heq : (Finset.range BOARD_MAX_LENGTH).fold Nat.xor 0 f' =
        (Finset.range BOARD_MAX_LENGTH).fold Nat.xor 0 f :=
      xor_fold_congr (fun j _ => hoff j (by simp))
    rw [heq]
    show _ = Nat.xor _ 0
    rw [nxor_zero]
  | a :: S', f, f', hnd, hoff, hon => by
    have ha : a < BOARD_MAX_LENGTH ∧ f' a = 0 := hon a (by simp)
    have hndS : S'.Nodup := (List.nodup_cons.1 hnd).2
    have haS : a ∉ S' := (List.nodup_cons.1 hnd).1
    have hmid := xor_fold_mask S' (fun j => if j = a then 0 else f j) f' hndS
      (fun j hj => by
        by_cases hja : j = a
        · subst hja; simp [ha.2]
        · simp only [if_neg hja]
          exact hoff j (by simp [hja, hj]))
      (fun j hj => ⟨(hon j (by simp [hj])).1, (hon j (by simp [hj])).2⟩)
    have hmap : S'.map (fun j => if j = a then 0 else f j) = S'.map f := by
      apply List.map_congr_left
      intro j hj
      have hne : j ≠ a := fun he => haS (he ▸ hj)
      simp [hne]
    have hone : (Finset.range BOARD_MAX_LENGTH).fold Nat.xor 0
        (fun j => if j = a then 0 else f j) =
        Nat.xor (Nat.xor ((Finset.range BOARD_MAX_LENGTH).fold Nat.xor 0 f) (f a)) 0 := by
      have hupd := @xor_fold_update f (fun j => if j = a then 0 else f j) a
        BOARD_MAX_LENGTH ha.1 (fun j hj => by simp [hj])
      simpa using hupd
    rw [hmid, hmap, hone, nxor_zero]
    show Nat.xor (Nat.xor _ (f a)) (xorList (List.map f S')) =
      Nat.xor _ (Nat.xor (f a) (xorList (List.map f S')))
    rw [nxor_assoc]

/-! ## Traversal paths through the next-stone linkage -/

/-- `Follows next a L b`: starting at `a` and repeatedly applying
`next`, the nodes visited are exactly the list `L`, after which the
traversal stands at `b`. -/
inductive Follows (next : List Nat) : Nat → List Nat → Nat → Prop where
  | nil (a : Nat) : Follows next a [] a
  | cons {a b : Nat} {L : List Nat} (h : Follows next (next.getD a 0) L b) :
      Follows next a (a :: L) b

theorem Follows.first_eq {next : List Nat} {a b x : Nat} {L : List Nat}
    (h : Follows next a (x :: L) b) : x = a := by
  cases h
  rfl

theorem Follows.nil_eq {next : List Nat} {a b : Nat}
    (h : Follows next a [] b) : a = b := by
  cases h
  rfl

theorem Follows.append {next : List Nat} {a b c : Nat} {L M : List Nat}
    (h1 : Follows next a L b) (h2 : Follows next b M c) :
    Follows next a (L ++ M) c := by
  induction h1 with
  | nil => simpa using h2
  | cons h ih => exact Follows.cons (ih h2)

theorem Follows.congr {next next' : List Nat} {a b : Nat} {L : List Nat}
    (hagree : ∀ x ∈ L, next'.getD x 0 = next.getD x 0)
    (h : Follows next a L b) : Follows next' a L b := by
  induction h with
  | nil => exact Follows.nil _
  | @cons a b L h ih =>
    have hx : next'.getD a 0 = next.getD a 0 := hagree a (by simp)
    refine Follows.cons ?_
    rw [hx]
    exact ih (fun x hx => hagree x (by simp [hx]))

theorem Follows.single {next : List Nat} {b y : Nat}
    (h2 : next.getD y 0 = b) : Follows next y [y] b := by
  refine Follows.cons ?_
  rw [h2]
  exact Follows.nil b

theorem Follows.snoc {next : List Nat} {a b y : Nat} {L : List Nat}
    (h1 : Follows next a L y) (h2 : next.getD y 0 = b) :
    Follows next a (L ++ [y]) b :=
  h1.append (Follows.single h2)

theorem Follows.unsnoc {next : List Nat} {a b y : Nat} {L : List Nat}
    (h : Follows next a (L ++ [y]) b) :
    Follows next a L y ∧ next.getD y 0 = b := by
  induction L generalizing a with
  | nil =>
    have hy : y = a := h.first_eq
    subst hy
    cases h with
    | cons h' =>
      exact ⟨Follows.nil y, h'.nil_eq.symm ▸ rfl⟩
  | cons x L ih =>
    have hx : x = a := h.first_eq
    subst hx
    cases h with
    | cons h' =>
      obtain ⟨h1, h2⟩ := ih h'
      exact ⟨Follows.cons h1, h2⟩

theorem circularRenAux_spec {next : List Nat} {origin : Nat} :
    ∀ {L : List Nat} {cur : Nat} {fuel : Nat},
      Follows next cur L origin → (∀ x ∈ L, x ≠ origin) → L.length < fuel →
      circularRenAux next origin cur fuel = L := by
  intro L
  induction L with
  | nil =>
    intro cur fuel h _ hfuel
    have hc : cur = origin := h.nil_eq
    match fuel, hfuel with
    | fuel + 1, _ => simp [circularRenAux, hc]
  | cons x L ih =>
    intro cur fuel h hne hfuel
    have hx : x = cur := h.first_eq
    subst hx
    have hxo : x ≠ origin := hne x (by simp)
    match fuel, hfuel with
    | fuel + 1, hfuel =>
      have hrec : Follows next (next.getD x 0) L origin := by
        cases h with
        | cons h' => exact h'
      simp only [circularRenAux, if_neg hxo]
      rw [ih hrec (fun y hy => hne y (by simp [hy])) (by simpa using Nat.lt_of_succ_lt_succ hfuel)]

/-- A cycle of the next-stone linkage rooted at `origin`. -/
structure Cyc (next : List Nat) (origin : Nat) (L : List Nat) : Prop where
  follows : Follows next origin L origin
  ne : L ≠ []
  nodup : L.Nodup

theorem Cyc.head_eq {next : List Nat} {origin : Nat} {L : List Nat}
    (h : Cyc next origin L) : ∃ L', L = origin :: L' := by
  match L, h.ne with
  | x :: L', _ =>
    have := h.follows.first_eq
    exact ⟨L', by rw [this]⟩

theorem nodup_length_le (L : List Nat) (n : Nat) (hnd : L.Nodup)
    (hlt : ∀ x ∈ L, x < n) : L.length ≤ n := by
  classical
  have hsub : L.toFinset ⊆ Finset.range n := by
    intro x hx
    exact Finset.mem_range.2 (hlt x (List.mem_toFinset.1 hx))
  have hcard : L.toFinset.card = L.length := List.toFinset_card_of_nodup hnd
  have := Finset.card_le_card hsub
  simpa [hcard] using this

/-- A cycle of length at most the board size is exactly what the
executable traversal returns. -/
theorem chain_stones_of_cyc {next : List Nat} {origin : Nat} {L : List Nat}
    (h : Cyc next origin L) (hlen : L.length ≤ BOARD_MAX_LENGTH) :
    chain_stones next origin = L := by
  obtain ⟨L', hL⟩ := h.head_eq
  subst hL
  have hfol : Follows next (next.getD origin 0) L' origin := by
    cases h.follows with
    | cons h' => exact h'
  have hno : origin ∉ L' := (List.nodup_cons.1 h.nodup).1
  have hlen' : L'.length < BOARD_MAX_LENGTH := by
    simpa using Nat.lt_of_lt_of_le (Nat.lt_succ_self _) (by simpa using hlen)
  unfold chain_stones
  rw [circularRenAux_spec hfol (fun x hx he => hno (he ▸ hx)) hlen']

/-! ## Well-formedness of a goban -/

/-- The stones of the chain in slot `id`, read off the executable
traversal. -/
def chainCells (g : Goban) (id : Nat) : List Nat :=
  chain_stones g.next_stone (g.chains.getD id default).origin

/-- Structural well-formedness: lengths, the correspondence between the
board map and the chain cycles, and the `origin`/`last`/`num_stones`
bookkeeping (spec §3 invariants, hash apart). -/
structure GobanWFcore (g : Goban) : Prop where
  board_len : g.board.length = BOARD_MAX_LENGTH
  next_len : g.next_stone.length = BOARD_MAX_LENGTH
  height_le : g.size.1 ≤ 19
  width_le : g.size.2 ≤ 19
  cells : ∀ i id, g.board.getD i none = some id →
    id < g.chains.length ∧ (g.chains.getD id default).used = true
  cyc : ∀ id, id < g.chains.length → (g.chains.getD id default).used = true →
    Cyc g.next_stone (g.chains.getD id default).origin (chainCells g id)
  owns : ∀ id, id < g.chains.length → (g.chains.getD id default).used = true →
    ∀ s ∈ chainCells g id, g.board.getD s none = some id
  cover : ∀ i id, g.board.getD i none = some id → i ∈ chainCells g id
  last_eq : ∀ id, id < g.chains.length → (g.chains.getD id default).used = true →
    (chainCells g id).getLast? = some (g.chains.getD id default).last
  count : ∀ id, id < g.chains.length → (g.chains.getD id default).used = true →
    (chainCells g id).length = (g.chains.getD id default).num_stones

/-- Full well-formedness: the structural invariants together with the
Zobrist-hash invariant of the claim. -/
structure GobanWF (g : Goban) extends GobanWFcore g : Prop where
  hash_eq : g.zobrist_hash = hashOfBoard g

theorem GobanWFcore.cell_lt {g : Goban} (hwf : GobanWFcore g) {i : Nat} {id : Nat}
    (h : g.board.getD i none = some id) : i < BOARD_MAX_LENGTH := by
  have hlt := lt_length_of_getD_ne g.board i none
    (fun hc => by rw [h] at hc; exact Option.noConfusion hc)
  rw [hwf.board_len] at hlt
  exact hlt

theorem GobanWFcore.stone_lt {g : Goban} (hwf : GobanWFcore g) {id s : Nat}
    (hid : id < g.chains.length) (hu : (g.chains.getD id default).used = true)
    (hs : s ∈ chainCells g id) : s < BOARD_MAX_LENGTH :=
  hwf.cell_lt (hwf.owns id hid hu s hs)

theorem GobanWFcore.stones_disjoint {g : Goban} (hwf : GobanWFcore g) {id1 id2 s : Nat}
    (h1 : id1 < g.chains.length) (hu1 : (g.chains.getD id1 default).used = true)
    (h2 : id2 < g.chains.length) (hu2 : (g.chains.getD id2 default).used = true)
    (hs1 : s ∈ chainCells g id1) (hs2 : s ∈ chainCells g id2) : id1 = id2 := by
  have e1 := hwf.owns id1 h1 hu1 s hs1
  have e2 := hwf.owns id2 h2 hu2 s hs2
  rw [e1] at e2
  exact Option.some.inj e2

/-- Decompose a nonempty list into its initial part and its last
element, with the last element absent from the initial part when the
list has no duplicates. -/
theorem nodup_dropLast_getLast {L : List Nat} (hne : L ≠ []) (hnd : L.Nodup) :
    L = L.dropLast ++ [L.getLast hne] ∧ L.getLast hne ∉ L.dropLast := by
  constructor
  · exact (List.dropLast_append_getLast hne).symm
  · intro hmem
    have hperm : L = L.dropLast ++ [L.getLast hne] := (List.dropLast_append_getLast hne).symm
    rw [hperm] at hnd
    have := List.disjoint_of_nodup_append hnd
    exact this hmem (by simp)

/-- Change the successor of the tail of a traversal: the path now ends
at the new target. -/
theorem follows_retarget {next next' : List Nat} {origin lastv t : Nat} {L : List Nat}
    (hfol : Follows next origin L origin) (hne : L ≠ []) (hnd : L.Nodup)
    (hlast : L.getLast hne = lastv)
    (hagree : ∀ x ∈ L, x ≠ lastv → next'.getD x 0 = next.getD x 0)
    (hl : next'.getD lastv 0 = t) :
    Follows next' origin L t := by
  obtain ⟨hdecomp, hnotin⟩ := nodup_dropLast_getLast hne hnd
  rw [hlast] at hdecomp hnotin
  rw [hdecomp] at hfol
  obtain ⟨hinit, _⟩ := hfol.unsnoc
  have hinit' : Follows next' origin L.dropLast lastv :=
    hinit.congr (fun x hx => by
      have hxL : x ∈ L := by rw [hdecomp]; exact List.mem_append_left _ hx
      have hxne : x ≠ lastv := fun he => hnotin (he ▸ hx)
      exact hagree x hxL hxne)
  rw [hdecomp]
  exact hinit'.snoc hl

/-! ## Liberty-only modifications and stability lemmas -/

/-- Chains equal in every field except possibly the liberty set. -/
def chainEqExceptLib (c c' : Chain) : Prop :=
  c'.color = c.color ∧ c'.origin = c.origin ∧ c'.last = c.last ∧
    c'.used = c.used ∧ c'.num_stones = c.num_stones

theorem chainEqExceptLib_refl (c : Chain) : chainEqExceptLib c c :=
  ⟨rfl, rfl, rfl, rfl, rfl⟩

theorem chainEqExceptLib_trans {a b c : Chain}
    (h1 : chainEqExceptLib a b) (h2 : chainEqExceptLib b c) : chainEqExceptLib a c :=
  ⟨h2.1.trans h1.1, h2.2.1.trans h1.2.1, h2.2.2.1.trans h1.2.2.1,
    h2.2.2.2.1.trans h1.2.2.2.1, h2.2.2.2.2.trans h1.2.2.2.2⟩

/-- Two gobans that agree except possibly on the liberty sets stored in
their chain pools. -/
structure LibOnly (g g' : Goban) : Prop where
  board : g'.board = g.board
  next : g'.next_stone = g.next_stone
  size : g'.size = g.size
  hash : g'.zobrist_hash = g.zobrist_hash
  len : g'.chains.length = g.chains.length
  fields : ∀ id, chainEqExceptLib (g.chains.getD id default) (g'.chains.getD id default)

theorem LibOnly.refl (g : Goban) : LibOnly g g :=
  ⟨rfl, rfl, rfl, rfl, rfl, fun _ => chainEqExceptLib_refl _⟩

theorem LibOnly.trans {g1 g2 g3 : Goban} (h1 : LibOnly g1 g2) (h2 : LibOnly g2 g3) :
    LibOnly g1 g3 :=
  ⟨h2.board.trans h1.board, h2.next.trans h1.next, h2.size.trans h1.size,
    h2.hash.trans h1.hash, h2.len.trans h1.len,
    fun id => chainEqExceptLib_trans (h1.fields id) (h2.fields id)⟩

theorem foldl_preserve {α β : Type} (P : α → Prop) (f : α → β → α)
    (hstep : ∀ a b, P a → P (f a b)) : ∀ (l : List β) (a : α), P a → P (l.foldl f a) := by
  intro l
  induction l with
  | nil => intro a ha; exact ha
  | cons x l ih =>
    intro a ha
    exact ih (f a x) (hstep a x ha)

theorem LibOnly.set_lib (g : Goban) (id : Nat) (libs : Liberties) :
    LibOnly g { g with chains :=
      (g.chains.set id { g.chains.getD id default with liberties := libs }) } := by
  refine ⟨rfl, rfl, rfl, rfl, by simp, fun j => ?_⟩
  by_cases hj : j = id
  · subst hj
    by_cases hlt : j < g.chains.length
    · show chainEqExceptLib _ ((g.chains.set j _).getD j default)
      rw [getD_set_self _ _ _ _ hlt]
      exact ⟨rfl, rfl, rfl, rfl, rfl⟩
    · show chainEqExceptLib _ ((g.chains.set j _).getD j default)
      rw [List.set_eq_of_length_le (Nat.le_of_not_lt hlt)]
      exact chainEqExceptLib_refl _
  · show chainEqExceptLib _ ((g.chains.set id _).getD j default)
    rw [getD_set_ne _ _ _ _ _ (fun he => hj he.symm)]
    exact chainEqExceptLib_refl _

theorem LibOnly.chainCells_eq {g g' : Goban} (h : LibOnly g g') (id : Nat) :
    chainCells g' id = chainCells g id := by
  unfold chainCells
  rw [h.next, (h.fields id).2.1]

theorem LibOnly.wfcore {g g' : Goban} (hwf : GobanWFcore g) (h : LibOnly g g') :
    GobanWFcore g' := by
  refine ⟨by rw [h.board]; exact hwf.board_len, by rw [h.next]; exact hwf.next_len,
    by rw [h.size]; exact hwf.height_le, by rw [h.size]; exact hwf.width_le,
    ?_, ?_, ?_, ?_, ?_, ?_⟩
  · intro i id hbd
    rw [h.board] at hbd
    obtain ⟨h1, h2⟩ := hwf.cells i id hbd
    exact ⟨h.len ▸ h1, ((h.fields id).2.2.2.1) ▸ h2⟩
  · intro id hid hu
    rw [h.len] at hid
    rw [(h.fields id).2.2.2.1] at hu
    have hc := hwf.cyc id hid hu
    rw [h.chainCells_eq, h.next, (h.fields id).2.1]
    exact hc
  · intro id hid hu s hs
    rw [h.len] at hid
    rw [(h.fields id).2.2.2.1] at hu
    rw [h.chainCells_eq] at hs
    rw [h.board]
    exact hwf.owns id hid hu s hs
  · intro i id hbd
    rw [h.board] at hbd
    rw [h.chainCells_eq]
    exact hwf.cover i id hbd
  · intro id hid hu
    rw [h.len] at hid
    rw [(h.fields id).2.2.2.1] at hu
    rw [h.chainCells_eq, (h.fields id).2.2.1]
    exact hwf.last_eq id hid hu
  · intro id hid hu
    rw [h.len] at hid
    rw [(h.fields id).2.2.2.1] at hu
    rw [h.chainCells_eq, (h.fields id).2.2.2.2]
    exact hwf.count id hid hu

theorem LibOnly.cellColor_eq {g g' : Goban} (h : LibOnly g g') (i : Nat) :
    cellColor g' i = cellColor g i := by
  unfold cellColor
  rw [h.board]
  cases hbd : g.board.getD i none with
  | none => rfl
  | some id =>
    simp only [Option.map_some']
    rw [(h.fields id).1]

theorem remove_opposite_liberties_libOnly (g : Goban) (p : Nat) (opp : List Nat) :
    LibOnly g (g.remove_opposite_liberties p opp).1 := by
  unfold Goban.remove_opposite_liberties
  refine foldl_preserve (fun (acc : Goban × List Nat) => LibOnly g acc.1) _ ?_ opp (g, [])
    (LibOnly.refl g)
  rintro ⟨gc, dead⟩ id hacc
  dsimp only
  split
  · split
    · exact hacc.trans (LibOnly.set_lib gc id _)
    · exact hacc.trans (LibOnly.set_lib gc id _)
  · exact hacc

/-! ## Board rewriting and chain creation -/

theorem length_foldl_set (L : List Nat) (b : List (Option Nat)) (v : Option Nat) :
    (L.foldl (fun b s => b.set s v) b).length = b.length := by
  induction L generalizing b with
  | nil => rfl
  | cons x L ih => simp [List.foldl, ih]

theorem getD_foldl_set (L : List Nat) (b : List (Option Nat)) (v : Option Nat) (j : Nat) :
    (L.foldl (fun b s => b.set s v) b).getD j none =
      if j ∈ L ∧ j < b.length then v else b.getD j none := by
  induction L generalizing b with
  | nil => simp
  | cons x L ih =>
    simp only [List.foldl]
    rw [ih, List.length_set]
    by_cases hx : j = x
    · subst hx
      by_cases hlen : j < b.length
      · by_cases hL : j ∈ L
        · simp [hL, hlen]
        · rw [getD_set_self _ _ _ _ hlen]
          simp [hL, hlen]
      · rw [List.set_eq_of_length_le (Nat.le_of_not_lt hlen)]
        simp [hlen]
    · rw [getD_set_ne _ _ _ _ _ (fun he => hx he.symm)]
      by_cases hL : j ∈ L
      · simp [hL, hx]
      · simp [hL, hx]

theorem getD_append_lt {α : Type} (l1 l2 : List α) (i : Nat) (d : α) (h : i < l1.length) :
    (l1 ++ l2).getD i d = l1.getD i d := by
  simp [List.getD, List.getElem?_append, h]

theorem getD_append_len {α : Type} (l1 : List α) (x : α) (d : α) :
    (l1 ++ [x]).getD l1.length d = x := by
  simp [List.getD, List.getElem?_append_right (Nat.le_refl _)]

theorem circularRenAux_self (next : List Nat) (o : Nat) (fuel : Nat) :
    circularRenAux next o o fuel = [] := by
  cases fuel with
  | zero => rfl
  | succ n => simp [circularRenAux]

theorem chain_stones_singleton (next : List Nat) (p : Nat) (h : next.getD p 0 = p) :
    chain_stones next p = [p] := by
  unfold chain_stones
  rw [h, circularRenAux_self]

/-- If a chain keeps its origin and the linkage is unchanged on its
cells, its executable cycle is unchanged. -/
theorem chainCells_congr {g : Goban} (hwf : GobanWFcore g) {id : Nat}
    (hid : id < g.chains.length) (hu : (g.chains.getD id default).used = true)
    (next' : List Nat)
    (hagree : ∀ x ∈ chainCells g id, next'.getD x 0 = g.next_stone.getD x 0) :
    chain_stones next' (g.chains.getD id default).origin = chainCells g id := by
  have hcyc := hwf.cyc id hid hu
  have hfol' : Follows next' (g.chains.getD id default).origin (chainCells g id)
      (g.chains.getD id default).origin :=
    hcyc.follows.congr hagree
  exact chain_stones_of_cyc ⟨hfol', hcyc.ne, hcyc.nodup⟩
    (nodup_length_le _ _ hcyc.nodup (fun x hx => hwf.stone_lt hid hu hx))

theorem create_chain_spec (g : Goban) (p : Nat) (color : Color) (libs : List Nat)
    (hwf : GobanWFcore g) (hp : p < BOARD_MAX_LENGTH) :
    (g.create_chain p color libs).2 = g.chains.length ∧
    (g.create_chain p color libs).1 =
      { chains := g.chains ++ [Chain.new_with_liberties color p libs.toFinset]
        board := g.board.set p (some g.chains.length)
        next_stone := g.next_stone.set p p
        size := g.size
        zobrist_hash := g.zobrist_hash } := by
  have hplen : p < g.next_stone.length := by rw [hwf.next_len]; exact hp
  have hfix : (g.next_stone.set p p).getD p 0 = p := getD_set_self _ _ _ _ hplen
  have hsing := chain_stones_singleton (g.next_stone.set p p) p hfix
  have hlen1 : (g.chains ++ [Chain.new_with_liberties color p libs.toFinset]).length - 1 =
      g.chains.length := by simp
  constructor
  · show (g.chains ++ [Chain.new_with_liberties color p libs.toFinset]).length - 1 =
      g.chains.length
    exact hlen1
  · show Goban.update_chain_indexes_in_board _ _ = _
    unfold Goban.update_chain_indexes_in_board
    dsimp only
    rw [hlen1, getD_append_len]
    show ({ chains := _
            board := ((chain_stones (g.next_stone.set p p) p).foldl
              (fun b s => b.set s (some g.chains.length)) g.board)
            next_stone := _
            size := _
            zobrist_hash := _ } : Goban) = _
    rw [hsing]
    rfl

/-- The literal state produced by `create_chain`. -/
def createdGoban (g : Goban) (p : Nat) (color : Color) (libs : List Nat) : Goban :=
  { chains := g.chains ++ [Chain.new_with_liberties color p libs.toFinset]
    board := g.board.set p (some g.chains.length)
    next_stone := g.next_stone.set p p
    size := g.size
    zobrist_hash := g.zobrist_hash }

theorem created_board_getD (g : Goban) (p : Nat) (color : Color) (libs : List Nat)
    (hwf : GobanWFcore g) (hp : p < BOARD_MAX_LENGTH) (j : Nat) :
    (createdGoban g p color libs).board.getD j none =
      if j = p then some g.chains.length else g.board.getD j none := by
  show (g.board.set p (some g.chains.length)).getD j none = _
  by_cases hj : j = p
  · subst hj
    rw [if_pos rfl]
    exact getD_set_self _ _ _ _ (by rw [hwf.board_len]; exact hp)
  · rw [if_neg hj]
    exact getD_set_ne _ _ _ _ _ (fun he => hj he.symm)

theorem created_chains_getD_lt (g : Goban) (p : Nat) (color : Color) (libs : List Nat)
    {id : Nat} (hid : id < g.chains.length) :
    (createdGoban g p color libs).chains.getD id default = g.chains.getD id default :=
  getD_append_lt _ _ _ _ hid

theorem created_chains_getD_len (g : Goban) (p : Nat) (color : Color) (libs : List Nat) :
    (createdGoban g p color libs).chains.getD g.chains.length default =
      Chain.new_with_liberties color p libs.toFinset :=
  getD_append_len _ _ _

theorem created_chainCells_old (g : Goban) (p : Nat) (color : Color) (libs : List Nat)
    (hwf : GobanWFcore g) (hemp : g.board.getD p none = none)
    {id : Nat} (hid : id < g.chains.length)
    (hu : (g.chains.getD id default).used = true) :
    chainCells (createdGoban g p color libs) id = chainCells g id := by
  unfold chainCells
  rw [created_chains_getD_lt g p color libs hid]
  show chain_stones (g.next_stone.set p p) _ = _
  exact chainCells_congr hwf hid hu _ (fun x hx => by
    have hbx := hwf.owns id hid hu x hx
    have hxp : x ≠ p := fun he => by rw [he, hemp] at hbx; exact Option.noConfusion hbx
    exact getD_set_ne _ _ _ _ _ (fun he => hxp he.symm))

theorem created_chainCells_new (g : Goban) (p : Nat) (color : Color) (libs : List Nat)
    (hwf : GobanWFcore g) (hp : p < BOARD_MAX_LENGTH) :
    chainCells (createdGoban g p color libs) g.chains.length = [p] := by
  unfold chainCells
  rw [created_chains_getD_len]
  show chain_stones (g.next_stone.set p p) _ = _
  exact chain_stones_singleton _ _ (getD_set_self _ _ _ _ (by rw [hwf.next_len]; exact hp))

theorem created_wfcore (g : Goban) (p : Nat) (color : Color) (libs : List Nat)
    (hwf : GobanWFcore g) (hp : p < BOARD_MAX_LENGTH)
    (hemp : g.board.getD p none = none) :
    GobanWFcore (createdGoban g p color libs) := by
  have hbd := created_board_getD g p color libs hwf hp
  have hnewcells := created_chainCells_new g p color libs hwf hp
  have hlen : (createdGoban g p color libs).chains.length = g.chains.length + 1 := by
    simp [createdGoban]
  refine ⟨?_, ?_, ?_, ?_, ?_, ?_, ?_, ?_, ?_, ?_⟩
  · show (g.board.set p (some g.chains.length)).length = _
    rw [List.length_set]; exact hwf.board_len
  · show (g.next_stone.set p p).length = _
    rw [List.length_set]; exact hwf.next_len
  · exact hwf.height_le
  · exact hwf.width_le
  · intro i id hbi
    rw [hbd i] at hbi
    by_cases hip : i = p
    · rw [if_pos hip] at hbi
      obtain rfl : id = g.chains.length := (Option.some.inj hbi).symm
      rw [hlen, created_chains_getD_len]
      exact ⟨Nat.lt_succ_self _, rfl⟩
    · rw [if_neg hip] at hbi
      obtain ⟨h1, h2⟩ := hwf.cells i id hbi
      rw [hlen, created_chains_getD_lt g p color libs h1]
      exact ⟨Nat.lt_succ_of_lt h1, h2⟩
  · intro id hid hu
    rw [hlen] at hid
    rcases Nat.lt_succ_iff_lt_or_eq.1 hid with hlt | heq
    · rw [created_chains_getD_lt g p color libs hlt] at hu ⊢
      rw [created_chainCells_old g p color libs hwf hemp hlt hu]
      have hcyc := hwf.cyc id hlt hu
      refine ⟨hcyc.follows.congr ?_, hcyc.ne, hcyc.nodup⟩
      intro x hx
      have hbx := hwf.owns id hlt hu x hx
      have hxp : x ≠ p := fun he => by rw [he, hemp] at hbx; exact Option.noConfusion hbx
      show (g.next_stone.set p p).getD x 0 = _
      exact getD_set_ne _ _ _ _ _ (fun he => hxp he.symm)
    · subst heq
      rw [created_chains_getD_len] at hu ⊢
      rw [hnewcells]
      refine ⟨?_, by simp, by simp⟩
      show Follows _ p [p] p
      exact Follows.single (getD_set_self _ _ _ _ (by rw [hwf.next_len]; exact hp))
  · intro id hid hu s hs
    rw [hlen] at hid
    rcases Nat.lt_succ_iff_lt_or_eq.1 hid with hlt | heq
    · rw [created_chains_getD_lt g p color libs hlt] at hu
      rw [created_chainCells_old g p color libs hwf hemp hlt hu] at hs
      have hbs := hwf.owns id hlt hu s hs
      have hsp : s ≠ p := fun he => by rw [he, hemp] at hbs; exact Option.noConfusion hbs
      rw [hbd s, if_neg hsp]
      exact hbs
    · subst heq
      rw [hnewcells] at hs
      have hsp : s = p := by simpa using hs
      rw [hbd s, if_pos hsp]
  · intro i id hbi
    rw [hbd i] at hbi
    by_cases hip : i = p
    · rw [if_pos hip] at hbi
      obtain rfl : id = g.chains.length := (Option.some.inj hbi).symm
      rw [hnewcells, hip]
      simp
    · rw [if_neg hip] at hbi
      obtain ⟨h1, h2⟩ := hwf.cells i id hbi
      rw [created_chainCells_old g p color libs hwf hemp h1 h2]
      exact hwf.cover i id hbi
  · intro id hid hu
    rw [hlen] at hid
    rcases Nat.lt_succ_iff_lt_or_eq.1 hid with hlt | heq
    · rw [created_chains_getD_lt g p color libs hlt] at hu ⊢
      rw [created_chainCells_old g p color libs hwf hemp hlt hu]
      exact hwf.last_eq id hlt hu
    · subst heq
      rw [created_chains_getD_len] at hu ⊢
      rw [hnewcells]
      rfl
  · intro id hid hu
    rw [hlen] at hid
    rcases Nat.lt_succ_iff_lt_or_eq.1 hid with hlt | heq
    · rw [created_chains_getD_lt g p color libs hlt] at hu ⊢
      rw [created_chainCells_old g p color libs hwf hemp hlt hu]
      exact hwf.count id hlt hu
    · subst heq
      rw [created_chains_getD_len] at hu ⊢
      rw [hnewcells]
      rfl

theorem created_cellColor (g : Goban) (p : Nat) (color : Color) (libs : List Nat)
    (hwf : GobanWFcore g) (hp : p < BOARD_MAX_LENGTH) (j : Nat) :
    cellColor (createdGoban g p color libs) j =
      if j = p then some color else cellColor g j := by
  unfold cellColor
  rw [created_board_getD g p color libs hwf hp]
  by_cases hj : j = p
  · rw [if_pos hj, if_pos hj]
    simp only [Option.map_some']
    rw [created_chains_getD_len]
    rfl
  · rw [if_neg hj, if_neg hj]
    cases hbj : g.board.getD j none with
    | none => rfl
    | some id =>
      have h1 := (hwf.cells j id hbj).1
      simp only [Option.map_some']
      rw [created_chains_getD_lt g p color libs h1]

/-! ## Splicing a new stone or a merged cycle into the board -/

/-- The shape of the state produced by extending chain `only` with the
stone `p`: the chain record is replaced, the board gains `p`, and the
next-stone linkage is rewired. -/
def splicedGoban (g : Goban) (only p : Nat) (newch : Chain) (next' : List Nat) : Goban :=
  { chains := g.chains.set only newch
    board := g.board.set p (some only)
    next_stone := next'
    size := g.size
    zobrist_hash := g.zobrist_hash }

@[simp] theorem splicedGoban_chains (g : Goban) (only p : Nat) (newch : Chain)
    (next' : List Nat) : (splicedGoban g only p newch next').chains = g.chains.set only newch :=
  rfl

@[simp] theorem splicedGoban_board (g : Goban) (only p : Nat) (newch : Chain)
    (next' : List Nat) :
    (splicedGoban g only p newch next').board = g.board.set p (some only) :=
  rfl

@[simp] theorem splicedGoban_next (g : Goban) (only p : Nat) (newch : Chain)
    (next' : List Nat) : (splicedGoban g only p newch next').next_stone = next' :=
  rfl

@[simp] theorem splicedGoban_size (g : Goban) (only p : Nat) (newch : Chain)
    (next' : List Nat) : (splicedGoban g only p newch next').size = g.size :=
  rfl

@[simp] theorem splicedGoban_hash (g : Goban) (only p : Nat) (newch : Chain)
    (next' : List Nat) :
    (splicedGoban g only p newch next').zobrist_hash = g.zobrist_hash :=
  rfl

/-- Generic well-formedness transfer: replace the record of chain `only`
and the next-stone linkage so that its cycle becomes `newCycle` (its old
cycle extended with the new stone `p`), leaving every other chain's
cells and linkage untouched. -/
theorem splice_wfcore (g : Goban) (hwf : GobanWFcore g) (only p : Nat)
    (hid : only < g.chains.length)
    (hu : (g.chains.getD only default).used = true)
    (hp : p < BOARD_MAX_LENGTH) (hemp : g.board.getD p none = none)
    (next' : List Nat) (newCycle : List Nat) (norigin nlast : Nat) (newch : Chain)
    (hlen' : next'.length = BOARD_MAX_LENGTH)
    (hagree : ∀ x, x ≠ p → x ≠ (g.chains.getD only default).last →
      next'.getD x 0 = g.next_stone.getD x 0)
    (hfol : Follows next' norigin newCycle norigin)
    (hstones : newCycle = p :: chainCells g only ∨ newCycle = chainCells g only ++ [p])
    (hlast : newCycle.getLast? = some nlast)
    (hnewch : newch.origin = norigin ∧ newch.last = nlast ∧ newch.used = true ∧
      newch.color = (g.chains.getD only default).color ∧
      newch.num_stones = (g.chains.getD only default).num_stones + 1) :
    GobanWFcore (splicedGoban g only p newch next') ∧
    (∀ j, cellColor (splicedGoban g only p newch next') j =
      if j = p then some (g.chains.getD only default).color else cellColor g j) := by
  have hpL : p ∉ chainCells g only := fun hmem => by
    have hcontra := hwf.owns only hid hu p hmem
    rw [hemp] at hcontra
    exact Option.noConfusion hcontra
  have hnd : newCycle.Nodup := by
    rcases hstones with h | h
    · rw [h]
      exact List.nodup_cons.2 ⟨hpL, (hwf.cyc only hid hu).nodup⟩
    · rw [h]
      refine List.Nodup.append (hwf.cyc only hid hu).nodup (by simp) ?_
      intro x hx hxp
      have hxpe : x = p := by simpa using hxp
      exact hpL (hxpe ▸ hx)
  have hne : newCycle ≠ [] := by
    rcases hstones with h | h
    · rw [h]; simp
    · rw [h]; simp
  have hmemNew : ∀ x ∈ newCycle, x = p ∨ x ∈ chainCells g only := by
    intro x hx
    rcases hstones with h | h
    · rw [h] at hx
      rcases List.mem_cons.1 hx with h1 | h1
      · exact Or.inl h1
      · exact Or.inr h1
    · rw [h] at hx
      rcases List.mem_append.1 hx with h1 | h1
      · exact Or.inr h1
      · exact Or.inl (by simpa using h1)
  have hsubNew : ∀ x ∈ chainCells g only, x ∈ newCycle := by
    intro x hx
    rcases hstones with h | h
    · rw [h]; exact List.mem_cons_of_mem _ hx
    · rw [h]; exact List.mem_append_left _ hx
  have hpNew : p ∈ newCycle := by
    rcases hstones with h | h
    · rw [h]; simp
    · rw [h]; simp
  have hltNew : ∀ x ∈ newCycle, x < BOARD_MAX_LENGTH := by
    intro x hx
    rcases hmemNew x hx with h | h
    · exact h ▸ hp
    · exact hwf.stone_lt hid hu h
  have hotherAgree : ∀ id, id ≠ only → id < g.chains.length →
      (g.chains.getD id default).used = true →
      ∀ x ∈ chainCells g id, next'.getD x 0 = g.next_stone.getD x 0 := by
    intro id hne' hlt' hu' x hx
    have hbx := hwf.owns id hlt' hu' x hx
    have hxp : x ≠ p := fun he => by rw [he, hemp] at hbx; exact Option.noConfusion hbx
    have hxl : x ≠ (g.chains.getD only default).last := by
      intro he
      have hlmem : (g.chains.getD only default).last ∈ chainCells g only := by
        have hl := hwf.last_eq only hid hu
        have hne0 := (hwf.cyc only hid hu).ne
        rw [List.getLast?_eq_getLast _ hne0] at hl
        exact (Option.some.inj hl) ▸ List.getLast_mem hne0
      exact hne' (hwf.stones_disjoint hlt' hu' hid hu hx (he ▸ hlmem))
    exact hagree x hxp hxl
  have hchgetD : ∀ id, (g.chains.set only newch).getD id default =
      if id = only then newch else g.chains.getD id default := by
    intro id
    by_cases hio : id = only
    · subst hio
      rw [if_pos rfl]
      exact getD_set_self _ _ _ _ hid
    · rw [if_neg hio]
      exact getD_set_ne _ _ _ _ _ (fun he => hio he.symm)
  have hbd : ∀ j, (g.board.set p (some only)).getD j none =
      if j = p then some only else g.board.getD j none := by
    intro j
    by_cases hj : j = p
    · subst hj
      rw [if_pos rfl]
      exact getD_set_self _ _ _ _ (by rw [hwf.board_len]; exact hp)
    · rw [if_neg hj]
      exact getD_set_ne _ _ _ _ _ (fun he => hj he.symm)
  have hcellsEq : ∀ id, id ≠ only → id < g.chains.length →
      (g.chains.getD id default).used = true →
      chainCells (splicedGoban g only p newch next') id = chainCells g id := by
    intro id hne' hlt' hu'
    unfold chainCells
    rw [splicedGoban_next, splicedGoban_chains, hchgetD, if_neg hne']
    exact chainCells_congr hwf hlt' hu' next' (hotherAgree id hne' hlt' hu')
  have hcellsOnly : chainCells (splicedGoban g only p newch next') only = newCycle := by
    unfold chainCells
    rw [splicedGoban_next, splicedGoban_chains, hchgetD, if_pos rfl, hnewch.1]
    exact chain_stones_of_cyc ⟨hfol, hne, hnd⟩ (nodup_length_le _ _ hnd hltNew)
  constructor
  · refine ⟨?_, ?_, hwf.height_le, hwf.width_le, ?_, ?_, ?_, ?_, ?_, ?_⟩
    · rw [splicedGoban_board, List.length_set]
      exact hwf.board_len
    · rw [splicedGoban_next]
      exact hlen'
    · intro i id hbi
      rw [splicedGoban_board, hbd i] at hbi
      rw [splicedGoban_chains, List.length_set, hchgetD]
      by_cases hip : i = p
      · rw [if_pos hip] at hbi
        have hido : id = only := (Option.some.inj hbi).symm
        rw [if_pos hido]
        exact ⟨hido ▸ hid, hnewch.2.2.1⟩
      · rw [if_neg hip] at hbi
        obtain ⟨h1, h2⟩ := hwf.cells i id hbi
        by_cases hio : id = only
        · rw [if_pos hio]
          exact ⟨h1, hnewch.2.2.1⟩
        · rw [if_neg hio]
          exact ⟨h1, h2⟩
    · intro id hid' hu'
      rw [splicedGoban_chains, List.length_set] at hid'
      by_cases hio : id = only
      · rw [hio, hcellsOnly]
        refine ⟨?_, hne, hnd⟩
        rw [splicedGoban_next, splicedGoban_chains, hchgetD, if_pos rfl, hnewch.1]
        exact hfol
      · rw [splicedGoban_chains, hchgetD, if_neg hio] at hu'
        rw [hcellsEq id hio hid' hu']
        have hcyc := hwf.cyc id hid' hu'
        refine ⟨?_, hcyc.ne, hcyc.nodup⟩
        rw [splicedGoban_next, splicedGoban_chains, hchgetD, if_neg hio]
        exact hcyc.follows.congr (hotherAgree id hio hid' hu')
    · intro id hid' hu' s hs
      rw [splicedGoban_chains, List.length_set] at hid'
      rw [splicedGoban_board, hbd s]
      by_cases hio : id = only
      · rw [hio] at hs ⊢
        rw [hcellsOnly] at hs
        by_cases hsp : s = p
        · rw [if_pos hsp]
        · rw [if_neg hsp]
          rcases hmemNew s hs with h | h
          · exact absurd h hsp
          · exact hwf.owns only hid hu s h
      · rw [splicedGoban_chains, hchgetD, if_neg hio] at hu'
        rw [hcellsEq id hio hid' hu'] at hs
        have hbs := hwf.owns id hid' hu' s hs
        have hsp : s ≠ p := fun he => by rw [he, hemp] at hbs; exact Option.noConfusion hbs
        rw [if_neg hsp]
        exact hbs
    · intro i id hbi
      rw [splicedGoban_board, hbd i] at hbi
      by_cases hip : i = p
      · rw [if_pos hip] at hbi
        have hido : id = only := (Option.some.inj hbi).symm
        rw [hido, hcellsOnly, hip]
        exact hpNew
      · rw [if_neg hip] at hbi
        obtain ⟨h1, h2⟩ := hwf.cells i id hbi
        by_cases hio : id = only
        · rw [hio, hcellsOnly]
          exact hsubNew i (hwf.cover i only (hio ▸ hbi))
        · rw [hcellsEq id hio h1 h2]
          exact hwf.cover i id hbi
    · intro id hid' hu'
      rw [splicedGoban_chains, List.length_set] at hid'
      by_cases hio : id = only
      · rw [hio, hcellsOnly]
        rw [splicedGoban_chains, hchgetD, if_pos rfl, hnewch.2.1]
        exact hlast
      · rw [splicedGoban_chains, hchgetD, if_neg hio] at hu'
        rw [hcellsEq id hio hid' hu']
        rw [splicedGoban_chains, hchgetD, if_neg hio]
        exact hwf.last_eq id hid' hu'
    · intro id hid' hu'
      rw [splicedGoban_chains, List.length_set] at hid'
      by_cases hio : id = only
      · rw [hio, hcellsOnly]
        rw [splicedGoban_chains, hchgetD, if_pos rfl, hnewch.2.2.2.2]
        have hcount := hwf.count only hid hu
        rcases hstones with h | h
        · rw [h, List.length_cons, hcount]
        · rw [h, List.length_append, hcount]
          rfl
      · rw [splicedGoban_chains, hchgetD, if_neg hio] at hu'
        rw [hcellsEq id hio hid' hu']
        rw [splicedGoban_chains, hchgetD, if_neg hio]
        exact hwf.count id hid' hu'
  · intro j
    unfold cellColor
    rw [splicedGoban_board, splicedGoban_chains, hbd j]
    by_cases hj : j = p
    · rw [if_pos hj, if_pos hj]
      simp only [Option.map_some']
      rw [hchgetD, if_pos rfl, hnewch.2.2.2.1]
    · rw [if_neg hj, if_neg hj]
      cases hbj : g.board.getD j none with
      | none => rfl
      | some id =>
        simp only [Option.map_some']
        rw [hchgetD]
        by_cases hio : id = only
        · rw [if_pos hio, hio, hnewch.2.2.2.1]
        · rw [if_neg hio]

theorem add_stone_size (g : Goban) (id stone : Nat) :
    (g.add_stone_to_chain id stone).size = g.size := by
  unfold Goban.add_stone_to_chain
  dsimp only
  split
  · rfl
  · rfl

theorem add_stone_hash (g : Goban) (id stone : Nat) :
    (g.add_stone_to_chain id stone).zobrist_hash = g.zobrist_hash := by
  unfold Goban.add_stone_to_chain
  dsimp only
  split
  · rfl
  · rfl

theorem case1_spec (g : Goban) (hwf : GobanWFcore g) (only p : Nat)
    (hid : only < g.chains.length)
    (hu : (g.chains.getD only default).used = true)
    (hp : p < BOARD_MAX_LENGTH) (hemp : g.board.getD p none = none) :
    GobanWFcore { g.add_stone_to_chain only p with
      board := (g.add_stone_to_chain only p).board.set p (some only) } ∧
    (∀ j, cellColor { g.add_stone_to_chain only p with
      board := (g.add_stone_to_chain only p).board.set p (some only) } j =
      if j = p then some (g.chains.getD only default).color else cellColor g j) := by
  have hcyc := hwf.cyc only hid hu
  have hlastq := hwf.last_eq only hid hu
  have hlastv : (chainCells g only).getLast hcyc.ne = (g.chains.getD only default).last := by
    rw [List.getLast?_eq_getLast _ hcyc.ne] at hlastq
    exact Option.some.inj hlastq
  have hlastmem : (g.chains.getD only default).last ∈ chainCells g only :=
    hlastv ▸ List.getLast_mem hcyc.ne
  have hlast_lt : (g.chains.getD only default).last < BOARD_MAX_LENGTH :=
    hwf.stone_lt hid hu hlastmem
  have hpL : p ∉ chainCells g only := fun hmem => by
    have hcontra := hwf.owns only hid hu p hmem
    rw [hemp] at hcontra
    exact Option.noConfusion hcontra
  have hlastp : (g.chains.getD only default).last ≠ p := fun he => hpL (he ▸ hlastmem)
  have hplen : p < g.next_stone.length := by rw [hwf.next_len]; exact hp
  have hllen : (g.chains.getD only default).last < g.next_stone.length := by
    rw [hwf.next_len]; exact hlast_lt
  by_cases hcmp : p < (g.chains.getD only default).origin
  · -- the new stone becomes the origin: cycle p :: L
    have hnp : ((g.next_stone.set p (g.chains.getD only default).origin).set
        (g.chains.getD only default).last p).getD p 0 =
        (g.chains.getD only default).origin := by
      rw [getD_set_ne _ _ _ _ _ hlastp, getD_set_self _ _ _ _ hplen]
    have hnl : ((g.next_stone.set p (g.chains.getD only default).origin).set
        (g.chains.getD only default).last p).getD
        (g.chains.getD only default).last 0 = p :=
      getD_set_self _ _ _ _ (by rw [List.length_set]; exact hllen)
    have hfolL : Follows ((g.next_stone.set p (g.chains.getD only default).origin).set
        (g.chains.getD only default).last p) (g.chains.getD only default).origin
        (chainCells g only) p :=
      follows_retarget hcyc.follows hcyc.ne hcyc.nodup hlastv
        (fun x hx hxl => by
          have hbx := hwf.owns only hid hu x hx
          have hxp : x ≠ p := fun he => by rw [he, hemp] at hbx; exact Option.noConfusion hbx
          rw [getD_set_ne _ _ _ _ _ (fun he => hxl he.symm),
            getD_set_ne _ _ _ _ _ (fun he => hxp he.symm)])
        hnl
    have hfol : Follows ((g.next_stone.set p (g.chains.getD only default).origin).set
        (g.chains.getD only default).last p) p (p :: chainCells g only) p := by
      refine Follows.cons ?_
      rw [hnp]
      exact hfolL
    have hlast' : (p :: chainCells g only).getLast? =
        some (g.chains.getD only default).last := by
      rw [List.getLast?_eq_getLast _ (by simp), List.getLast_cons hcyc.ne, hlastv]
    have hgc : { g.add_stone_to_chain only p with
        board := (g.add_stone_to_chain only p).board.set p (some only) } =
        splicedGoban g only p
          { g.chains.getD only default with
            origin := p, num_stones := (g.chains.getD only default).num_stones + 1 }
          ((g.next_stone.set p (g.chains.getD only default).origin).set
            (g.chains.getD only default).last p) := by
      unfold Goban.add_stone_to_chain
      rw [if_pos hcmp]
      rfl
    have hmain := splice_wfcore g hwf only p hid hu hp hemp
      ((g.next_stone.set p (g.chains.getD only default).origin).set
        (g.chains.getD only default).last p)
      (p :: chainCells g only) p (g.chains.getD only default).last
      { g.chains.getD only default with
        origin := p, num_stones := (g.chains.getD only default).num_stones + 1 }
      (by rw [List.length_set, List.length_set]; exact hwf.next_len)
      (fun x hxp hxl => by
        rw [getD_set_ne _ _ _ _ _ (fun he => hxl he.symm),
          getD_set_ne _ _ _ _ _ (fun he => hxp he.symm)])
      hfol (Or.inl rfl) hlast' ⟨rfl, rfl, hu, rfl, rfl⟩
    rw [hgc]
    exact hmain
  · -- the new stone becomes the tail: cycle L ++ [p]
    have hnp : ((g.next_stone.set (g.chains.getD only default).last p).set p
        (g.chains.getD only default).origin).getD p 0 =
        (g.chains.getD only default).origin :=
      getD_set_self _ _ _ _ (by rw [List.length_set]; exact hplen)
    have hnl : ((g.next_stone.set (g.chains.getD only default).last p).set p
        (g.chains.getD only default).origin).getD
        (g.chains.getD only default).last 0 = p := by
      rw [getD_set_ne _ _ _ _ _ (fun he => hlastp he.symm), getD_set_self _ _ _ _ hllen]
    have hfolL : Follows ((g.next_stone.set (g.chains.getD only default).last p).set p
        (g.chains.getD only default).origin) (g.chains.getD only default).origin
        (chainCells g only) p :=
      follows_retarget hcyc.follows hcyc.ne hcyc.nodup hlastv
        (fun x hx hxl => by
          have hbx := hwf.owns only hid hu x hx
          have hxp : x ≠ p := fun he => by rw [he, hemp] at hbx; exact Option.noConfusion hbx
          rw [getD_set_ne _ _ _ _ _ (fun he => hxp he.symm),
            getD_set_ne _ _ _ _ _ (fun he => hxl he.symm)])
        hnl
    have hfol : Follows ((g.next_stone.set (g.chains.getD only default).last p).set p
        (g.chains.getD only default).origin) (g.chains.getD only default).origin
        (chainCells g only ++ [p]) (g.chains.getD only default).origin :=
      hfolL.snoc hnp
    have hlast' : (chainCells g only ++ [p]).getLast? = some p := by
      simp
    have hgc : { g.add_stone_to_chain only p with
        board := (g.add_stone_to_chain only p).board.set p (some only) } =
        splicedGoban g only p
          { g.chains.getD only default with
            last := p, num_stones := (g.chains.getD only default).num_stones + 1 }
          ((g.next_stone.set (g.chains.getD only default).last p).set p
            (g.chains.getD only default).origin) := by
      unfold Goban.add_stone_to_chain
      rw [if_neg hcmp]
      rfl
    have hmain := splice_wfcore g hwf only p hid hu hp hemp
      ((g.next_stone.set (g.chains.getD only default).last p).set p
        (g.chains.getD only default).origin)
      (chainCells g only ++ [p]) (g.chains.getD only default).origin p
      { g.chains.getD only default with
        last := p, num_stones := (g.chains.getD only default).num_stones + 1 }
      (by rw [List.length_set, List.length_set]; exact hwf.next_len)
      (fun x hxp hxl => by
        rw [getD_set_ne _ _ _ _ _ (fun he => hxp he.symm),
          getD_set_ne _ _ _ _ _ (fun he => hxl he.symm)])
      hfol (Or.inr rfl) hlast' ⟨rfl, rfl, hu, rfl, rfl⟩
    rw [hgc]
    exact hmain

/-- The successor of a used chain's `last` is its `origin`: the cycle is
closed. -/
theorem cyc_next_last {g : Goban} (hwf : GobanWFcore g) {id : Nat}
    (hid : id < g.chains.length) (hu : (g.chains.getD id default).used = true) :
    g.next_stone.getD (g.chains.getD id default).last 0 =
      (g.chains.getD id default).origin := by
  have hcyc := hwf.cyc id hid hu
  have hlastq := hwf.last_eq id hid hu
  have hlastv : (chainCells g id).getLast hcyc.ne = (g.chains.getD id default).last := by
    rw [List.getLast?_eq_getLast _ hcyc.ne] at hlastq
    exact Option.some.inj hlastq
  obtain ⟨hdecomp, _⟩ := nodup_dropLast_getLast hcyc.ne hcyc.nodup
  have hfol := hcyc.follows
  rw [hdecomp] at hfol
  obtain ⟨_, hnl⟩ := hfol.unsnoc
  rw [hlastv] at hnl
  exact hnl

/-- The shape of the state produced by `merge_strings a b`: chain `a`
takes over, chain `b` is tombstoned, every cell of the merged cycle is
rewritten to `a`, and the two tails' successors are swapped. -/
def mergedGoban (g : Goban) (a b : Nat) (ch1' : Chain) (next' newCycle : List Nat) :
    Goban :=
  { chains := (g.chains.set a ch1').set b { g.chains.getD b default with used := false }
    board := newCycle.foldl (fun bd s => bd.set s (some a)) g.board
    next_stone := next'
    size := g.size
    zobrist_hash := g.zobrist_hash }

@[simp] theorem mergedGoban_chains (g : Goban) (a b : Nat) (ch1' : Chain)
    (next' newCycle : List Nat) :
    (mergedGoban g a b ch1' next' newCycle).chains =
      (g.chains.set a ch1').set b { g.chains.getD b default with used := false } :=
  rfl

@[simp] theorem mergedGoban_board (g : Goban) (a b : Nat) (ch1' : Chain)
    (next' newCycle : List Nat) :
    (mergedGoban g a b ch1' next' newCycle).board =
      newCycle.foldl (fun bd s => bd.set s (some a)) g.board :=
  rfl

@[simp] theorem mergedGoban_next (g : Goban) (a b : Nat) (ch1' : Chain)
    (next' newCycle : List Nat) :
    (mergedGoban g a b ch1' next' newCycle).next_stone = next' :=
  rfl

@[simp] theorem mergedGoban_size (g : Goban) (a b : Nat) (ch1' : Chain)
    (next' newCycle : List Nat) :
    (mergedGoban g a b ch1' next' newCycle).size = g.size :=
  rfl

@[simp] theorem mergedGoban_hash (g : Goban) (a b : Nat) (ch1' : Chain)
    (next' newCycle : List Nat) :
    (mergedGoban g a b ch1' next' newCycle).zobrist_hash = g.zobrist_hash :=
  rfl

theorem merged_wfcore (g : Goban) (hwf : GobanWFcore g) (a b : Nat)
    (ha : a < g.chains.length) (hb : b < g.chains.length) (hab : a ≠ b)
    (hua : (g.chains.getD a default).used = true)
    (hub : (g.chains.getD b default).used = true)
    (hcol : (g.chains.getD b default).color = (g.chains.getD a default).color)
    (next' newCycle : List Nat) (norigin nlast : Nat) (ch1' : Chain)
    (hlen' : next'.length = BOARD_MAX_LENGTH)
    (hfol : Follows next' norigin newCycle norigin)
    (hagree : ∀ x, x ≠ (g.chains.getD a default).last →
      x ≠ (g.chains.getD b default).last → next'.getD x 0 = g.next_stone.getD x 0)
    (hstones : newCycle = chainCells g b ++ chainCells g a ∨
      newCycle = chainCells g a ++ chainCells g b)
    (hlast : newCycle.getLast? = some nlast)
    (hch1' : ch1'.origin = norigin ∧ ch1'.last = nlast ∧ ch1'.used = true ∧
      ch1'.color = (g.chains.getD a default).color ∧
      ch1'.num_stones = (g.chains.getD a default).num_stones +
        (g.chains.getD b default).num_stones) :
    GobanWFcore (mergedGoban g a b ch1' next' newCycle) ∧
    (mergedGoban g a b ch1' next' newCycle).chains.length = g.chains.length ∧
    (∀ j, cellColor (mergedGoban g a b ch1' next' newCycle) j = cellColor g j) ∧
    (∀ j, (mergedGoban g a b ch1' next' newCycle).board.getD j none =
      if g.board.getD j none = some b then some a else g.board.getD j none) ∧
    ((mergedGoban g a b ch1' next' newCycle).chains.getD a default = ch1') ∧
    (∀ id, id ≠ a → id ≠ b →
      (mergedGoban g a b ch1' next' newCycle).chains.getD id default =
        g.chains.getD id default) := by
  have hcyca := hwf.cyc a ha hua
  have hcycb := hwf.cyc b hb hub
  have hdisj : ∀ x, x ∈ chainCells g a → x ∈ chainCells g b → False := by
    intro x hxa hxb
    exact hab (hwf.stones_disjoint ha hua hb hub hxa hxb)
  have hmemNew : ∀ x, x ∈ newCycle ↔ (x ∈ chainCells g a ∨ x ∈ chainCells g b) := by
    intro x
    rcases hstones with h | h
    · rw [h, List.mem_append]
      exact ⟨fun hx => hx.symm, fun hx => hx.symm⟩
    · rw [h, List.mem_append]
  have hnd : newCycle.Nodup := by
    rcases hstones with h | h
    · rw [h]
      exact List.Nodup.append hcycb.nodup hcyca.nodup (fun x hxb hxa => hdisj x hxa hxb)
    · rw [h]
      exact List.Nodup.append hcyca.nodup hcycb.nodup (fun x hxa hxb => hdisj x hxa hxb)
  have hne : newCycle ≠ [] := by
    rcases hstones with h | h
    · rw [h]
      intro hcontra
      exact hcyca.ne (List.append_eq_nil.1 hcontra).2
    · rw [h]
      intro hcontra
      exact hcycb.ne (List.append_eq_nil.1 hcontra).2
  have hltNew : ∀ x ∈ newCycle, x < BOARD_MAX_LENGTH := by
    intro x hx
    rcases (hmemNew x).1 hx with h | h
    · exact hwf.stone_lt ha hua h
    · exact hwf.stone_lt hb hub h
  have hlenF : ((g.chains.set a ch1').set b
      { g.chains.getD b default with used := false }).length = g.chains.length := by
    rw [List.length_set, List.length_set]
  have hchF : ∀ id, ((g.chains.set a ch1').set b
      { g.chains.getD b default with used := false }).getD id default =
      if id = b then { g.chains.getD b default with used := false }
      else if id = a then ch1' else g.chains.getD id default := by
    intro id
    by_cases hib : id = b
    · subst hib
      rw [if_pos rfl]
      exact getD_set_self _ _ _ _ (by rw [List.length_set]; exact hb)
    · rw [if_neg hib, getD_set_ne _ _ _ _ _ (fun he => hib he.symm)]
      by_cases hia : id = a
      · subst hia
        rw [if_pos rfl]
        exact getD_set_self _ _ _ _ ha
      · rw [if_neg hia]
        exact getD_set_ne _ _ _ _ _ (fun he => hia he.symm)
  have hchFa : ((g.chains.set a ch1').set b
      { g.chains.getD b default with used := false }).getD a default = ch1' := by
    rw [hchF, if_neg hab, if_pos rfl]
  have hboardF : ∀ j, (mergedGoban g a b ch1' next' newCycle).board.getD j none =
      if j ∈ newCycle then some a else g.board.getD j none := by
    intro j
    rw [mergedGoban_board, getD_foldl_set]
    by_cases hj : j ∈ newCycle
    · rw [if_pos ⟨hj, by rw [hwf.board_len]; exact hltNew j hj⟩, if_pos hj]
    · rw [if_neg (fun hc => hj hc.1), if_neg hj]
  have hcellsA : chainCells (mergedGoban g a b ch1' next' newCycle) a = newCycle := by
    unfold chainCells
    rw [mergedGoban_next, mergedGoban_chains, hchFa, hch1'.1]
    exact chain_stones_of_cyc ⟨hfol, hne, hnd⟩ (nodup_length_le _ _ hnd hltNew)
  have hotherAgree : ∀ id, id ≠ a → id ≠ b → id < g.chains.length →
      (g.chains.getD id default).used = true →
      ∀ x ∈ chainCells g id, next'.getD x 0 = g.next_stone.getD x 0 := by
    intro id hia hib hlt' hu' x hx
    have hlamem : (g.chains.getD a default).last ∈ chainCells g a := by
      have hl := hwf.last_eq a ha hua
      rw [List.getLast?_eq_getLast _ hcyca.ne] at hl
      exact (Option.some.inj hl) ▸ List.getLast_mem hcyca.ne
    have hlbmem : (g.chains.getD b default).last ∈ chainCells g b := by
      have hl := hwf.last_eq b hb hub
      rw [List.getLast?_eq_getLast _ hcycb.ne] at hl
      exact (Option.some.inj hl) ▸ List.getLast_mem hcycb.ne
    refine hagree x (fun he => ?_) (fun he => ?_)
    · exact hia (hwf.stones_disjoint hlt' hu' ha hua hx (he ▸ hlamem))
    · exact hib (hwf.stones_disjoint hlt' hu' hb hub hx (he ▸ hlbmem))
  have hcellsEq : ∀ id, id ≠ a → id ≠ b → id < g.chains.length →
      (g.chains.getD id default).used = true →
      chainCells (mergedGoban g a b ch1' next' newCycle) id = chainCells g id := by
    intro id hia hib hlt' hu'
    unfold chainCells
    rw [mergedGoban_next, mergedGoban_chains, hchF, if_neg hib, if_neg hia]
    exact chainCells_congr hwf hlt' hu' next' (hotherAgree id hia hib hlt' hu')
  have hid_notb : ∀ i id, i ∉ newCycle → g.board.getD i none = some id → id ≠ b := by
    intro i id hi hbd hib
    exact hi ((hmemNew i).2 (Or.inr (hwf.cover i b (hib ▸ hbd))))
  refine ⟨⟨?_, ?_, ?_, ?_, ?_, ?_, ?_, ?_, ?_, ?_⟩, hlenF, ?_, ?_, hchFa, ?_⟩
  · rw [mergedGoban_board, length_foldl_set]
    exact hwf.board_len
  · rw [mergedGoban_next]
    exact hlen'
  · rw [mergedGoban_size]
    exact hwf.height_le
  · rw [mergedGoban_size]
    exact hwf.width_le
  · intro i id hbi
    rw [hboardF i] at hbi
    rw [mergedGoban_chains, hlenF, hchF]
    by_cases hi : i ∈ newCycle
    · rw [if_pos hi] at hbi
      have hida : id = a := (Option.some.inj hbi).symm
      rw [if_neg (hida ▸ hab), if_pos hida]
      exact ⟨hida ▸ ha, hch1'.2.2.1⟩
    · rw [if_neg hi] at hbi
      obtain ⟨h1, h2⟩ := hwf.cells i id hbi
      rw [if_neg (hid_notb i id hi hbi)]
      by_cases hia : id = a
      · rw [if_pos hia]
        exact ⟨h1, hch1'.2.2.1⟩
      · rw [if_neg hia]
        exact ⟨h1, h2⟩
  · intro id hid' hu'
    rw [mergedGoban_chains, hlenF] at hid'
    rw [mergedGoban_chains, hchF] at hu'
    by_cases hib : id = b
    · rw [if_pos hib] at hu'
      exact absurd hu' (by simp)
    · rw [if_neg hib] at hu'
      by_cases hia : id = a
      · rw [hia, hcellsA]
        refine ⟨?_, hne, hnd⟩
        rw [mergedGoban_next, mergedGoban_chains, hchFa, hch1'.1]
        exact hfol
      · rw [if_neg hia] at hu'
        rw [hcellsEq id hia hib hid' hu']
        have hcyc := hwf.cyc id hid' hu'
        refine ⟨?_, hcyc.ne, hcyc.nodup⟩
        rw [mergedGoban_next, mergedGoban_chains, hchF, if_neg hib, if_neg hia]
        exact hcyc.follows.congr (hotherAgree id hia hib hid' hu')
  · intro id hid' hu' s hs
    rw [mergedGoban_chains, hlenF] at hid'
    rw [mergedGoban_chains, hchF] at hu'
    rw [hboardF s]
    by_cases hib : id = b
    · rw [if_pos hib] at hu'
      exact absurd hu' (by simp)
    · rw [if_neg hib] at hu'
      by_cases hia : id = a
      · rw [hia, hcellsA] at hs
        rw [if_pos hs, hia]
      · rw [if_neg hia] at hu'
        rw [hcellsEq id hia hib hid' hu'] at hs
        have hbs := hwf.owns id hid' hu' s hs
        have hsm : s ∉ newCycle := by
          intro hc
          rcases (hmemNew s).1 hc with h | h
          · exact hia (hwf.stones_disjoint hid' hu' ha hua hs h)
          · exact hib (hwf.stones_disjoint hid' hu' hb hub hs h)
        rw [if_neg hsm]
        exact hbs
  · intro i id hbi
    rw [hboardF i] at hbi
    by_cases hi : i ∈ newCycle
    · rw [if_pos hi] at hbi
      have hida : id = a := (Option.some.inj hbi).symm
      rw [hida, hcellsA]
      exact hi
    · rw [if_neg hi] at hbi
      have hib : id ≠ b := hid_notb i id hi hbi
      by_cases hia : id = a
      · exfalso
        exact hi ((hmemNew i).2 (Or.inl (hwf.cover i a (hia ▸ hbi))))
      · obtain ⟨h1, h2⟩ := hwf.cells i id hbi
        rw [hcellsEq id hia hib h1 h2]
        exact hwf.cover i id hbi
  · intro id hid' hu'
    rw [mergedGoban_chains, hlenF] at hid'
    rw [mergedGoban_chains, hchF] at hu' ⊢
    by_cases hib : id = b
    · rw [if_pos hib] at hu'
      exact absurd hu' (by simp)
    · rw [if_neg hib] at hu' ⊢
      by_cases hia : id = a
      · rw [if_pos hia, hia, hcellsA, hch1'.2.1]
        exact hlast
      · rw [if_neg hia] at hu' ⊢
        rw [hcellsEq id hia hib hid' hu']
        exact hwf.last_eq id hid' hu'
  · intro id hid' hu'
    rw [mergedGoban_chains, hlenF] at hid'
    rw [mergedGoban_chains, hchF] at hu' ⊢
    by_cases hib : id = b
    · rw [if_pos hib] at hu'
      exact absurd hu' (by simp)
    · rw [if_neg hib] at hu' ⊢
      by_cases hia : id = a
      · rw [if_pos hia, hia, hcellsA, hch1'.2.2.2.2]
        rcases hstones with h | h
        · rw [h, List.length_append, hwf.count a ha hua, hwf.count b hb hub]
          exact Nat.add_comm _ _
        · rw [h, List.length_append, hwf.count a ha hua, hwf.count b hb hub]
      · rw [if_neg hia] at hu' ⊢
        rw [hcellsEq id hia hib hid' hu']
        exact hwf.count id hid' hu'
  · intro j
    unfold cellColor
    rw [show (mergedGoban g a b ch1' next' newCycle).board.getD j none =
        if j ∈ newCycle then some a else g.board.getD j none from hboardF j]
    by_cases hj : j ∈ newCycle
    · rw [if_pos hj]
      simp only [Option.map_some']
      rw [mergedGoban_chains, hchFa]
      rcases (hmemNew j).1 hj with h | h
      · rw [hwf.owns a ha hua j h]
        simp only [Option.map_some']
        rw [hch1'.2.2.2.1]
      · rw [hwf.owns b hb hub j h]
        simp only [Option.map_some']
        rw [hch1'.2.2.2.1, hcol]
    · rw [if_neg hj]
      cases hbj : g.board.getD j none with
      | none => rfl
      | some id =>
        simp only [Option.map_some']
        rw [mergedGoban_chains, hchF, if_neg (hid_notb j id hj hbj)]
        by_cases hia : id = a
        · rw [if_pos hia, hia, hch1'.2.2.2.1]
        · rw [if_neg hia]
  · intro j
    rw [hboardF j]
    by_cases hj : j ∈ newCycle
    · rw [if_pos hj]
      rcases (hmemNew j).1 hj with h | h
      · rw [hwf.owns a ha hua j h, if_neg (by intro hc; exact hab (Option.some.inj hc))]
      · rw [hwf.owns b hb hub j h, if_pos rfl]
    · rw [if_neg hj]
      rw [if_neg (fun hc => hj ((hmemNew j).2 (Or.inr (hwf.cover j b hc))))]
  · intro id hia hib
    rw [mergedGoban_chains, hchF, if_neg hib, if_neg hia]

theorem merge_strings_spec (g : Goban) (hwf : GobanWFcore g) (a b : Nat)
    (ha : a < g.chains.length) (hb : b < g.chains.length) (hab : a ≠ b)
    (hua : (g.chains.getD a default).used = true)
    (hub : (g.chains.getD b default).used = true)
    (hcol : (g.chains.getD b default).color = (g.chains.getD a default).color) :
    GobanWFcore (g.merge_strings a b) ∧
    (g.merge_strings a b).chains.length = g.chains.length ∧
    (∀ j, cellColor (g.merge_strings a b) j = cellColor g j) ∧
    (∀ j, (g.merge_strings a b).board.getD j none =
      if g.board.getD j none = some b then some a else g.board.getD j none) ∧
    ((g.merge_strings a b).chains.getD a default).used = true ∧
    ((g.merge_strings a b).chains.getD a default).color =
      (g.chains.getD a default).color ∧
    (g.merge_strings a b).size = g.size ∧
    (g.merge_strings a b).zobrist_hash = g.zobrist_hash ∧
    (∀ id, id ≠ a → id ≠ b →
      (g.merge_strings a b).chains.getD id default = g.chains.getD id default) := by
  have hcyca := hwf.cyc a ha hua
  have hcycb := hwf.cyc b hb hub
  have hlastva : (chainCells g a).getLast hcyca.ne = (g.chains.getD a default).last := by
    have hl := hwf.last_eq a ha hua
    rw [List.getLast?_eq_getLast _ hcyca.ne] at hl
    exact Option.some.inj hl
  have hlastvb : (chainCells g b).getLast hcycb.ne = (g.chains.getD b default).last := by
    have hl := hwf.last_eq b hb hub
    rw [List.getLast?_eq_getLast _ hcycb.ne] at hl
    exact Option.some.inj hl
  have hlamem : (g.chains.getD a default).last ∈ chainCells g a :=
    hlastva ▸ List.getLast_mem hcyca.ne
  have hlbmem : (g.chains.getD b default).last ∈ chainCells g b :=
    hlastvb ▸ List.getLast_mem hcycb.ne
  have hdisj : ∀ x, x ∈ chainCells g a → x ∈ chainCells g b → False := by
    intro x hxa hxb
    exact hab (hwf.stones_disjoint ha hua hb hub hxa hxb)
  have hlab : (g.chains.getD a default).last ≠ (g.chains.getD b default).last :=
    fun he => hdisj _ hlamem (he ▸ hlbmem)
  have hla_lt : (g.chains.getD a default).last < g.next_stone.length := by
    rw [hwf.next_len]; exact hwf.stone_lt ha hua hlamem
  have hlb_lt : (g.chains.getD b default).last < g.next_stone.length := by
    rw [hwf.next_len]; exact hwf.stone_lt hb hub hlbmem
  have hnla := cyc_next_last hwf ha hua
  have hnlb := cyc_next_last hwf hb hub
  have hnext'la : ((g.next_stone.set (g.chains.getD a default).last
      (g.next_stone.getD (g.chains.getD b default).last 0)).set
      (g.chains.getD b default).last
      (g.next_stone.getD (g.chains.getD a default).last 0)).getD
      (g.chains.getD a default).last 0 = (g.chains.getD b default).origin := by
    rw [getD_set_ne _ _ _ _ _ hlab.symm, getD_set_self _ _ _ _ hla_lt, hnlb]
  have hnext'lb : ((g.next_stone.set (g.chains.getD a default).last
      (g.next_stone.getD (g.chains.getD b default).last 0)).set
      (g.chains.getD b default).last
      (g.next_stone.getD (g.chains.getD a default).last 0)).getD
      (g.chains.getD b default).last 0 = (g.chains.getD a default).origin := by
    rw [getD_set_self _ _ _ _ (by rw [List.length_set]; exact hlb_lt), hnla]
  have hagree : ∀ x, x ≠ (g.chains.getD a default).last →
      x ≠ (g.chains.getD b default).last →
      ((g.next_stone.set (g.chains.getD a default).last
        (g.next_stone.getD (g.chains.getD b default).last 0)).set
        (g.chains.getD b default).last
        (g.next_stone.getD (g.chains.getD a default).last 0)).getD x 0 =
      g.next_stone.getD x 0 := by
    intro x hxa hxb
    rw [getD_set_ne _ _ _ _ _ (fun he => hxb he.symm),
      getD_set_ne _ _ _ _ _ (fun he => hxa he.symm)]
  have hfolab : Follows ((g.next_stone.set (g.chains.getD a default).last
      (g.next_stone.getD (g.chains.getD b default).last 0)).set
      (g.chains.getD b default).last
      (g.next_stone.getD (g.chains.getD a default).last 0))
      (g.chains.getD a default).origin (chainCells g a)
      (g.chains.getD b default).origin :=
    follows_retarget hcyca.follows hcyca.ne hcyca.nodup hlastva
      (fun x hx hxl => hagree x hxl (fun he => hdisj x hx (he ▸ hlbmem)))
      hnext'la
  have hfolba : Follows ((g.next_stone.set (g.chains.getD a default).last
      (g.next_stone.getD (g.chains.getD b default).last 0)).set
      (g.chains.getD b default).last
      (g.next_stone.getD (g.chains.getD a default).last 0))
      (g.chains.getD b default).origin (chainCells g b)
      (g.chains.getD a default).origin :=
    follows_retarget hcycb.follows hcycb.ne hcycb.nodup hlastvb
      (fun x hx hxl => hagree x (fun he => hdisj x (he ▸ hlamem) hx) hxl)
      hnext'lb
  have hlen' : ((g.next_stone.set (g.chains.getD a default).last
      (g.next_stone.getD (g.chains.getD b default).last 0)).set
      (g.chains.getD b default).last
      (g.next_stone.getD (g.chains.getD a default).last 0)).length =
      BOARD_MAX_LENGTH := by
    rw [List.length_set, List.length_set]
    exact hwf.next_len
  by_cases hor : (g.chains.getD a default).origin > (g.chains.getD b default).origin
  · -- chain b's origin wins: cycle Lb ++ La, last stays chain a's last
    have hfol : Follows ((g.next_stone.set (g.chains.getD a default).last
        (g.next_stone.getD (g.chains.getD b default).last 0)).set
        (g.chains.getD b default).last
        (g.next_stone.getD (g.chains.getD a default).last 0))
        (g.chains.getD b default).origin (chainCells g b ++ chainCells g a)
        (g.chains.getD b default).origin :=
      hfolba.append hfolab
    have hlast' : (chainCells g b ++ chainCells g a).getLast? =
        some (g.chains.getD a default).last := by
      rw [List.getLast?_append_of_ne_nil _ hcyca.ne]
      exact hwf.last_eq a ha hua
    have hmain := merged_wfcore g hwf a b ha hb hab hua hub hcol
      ((g.next_stone.set (g.chains.getD a default).last
        (g.next_stone.getD (g.chains.getD b default).last 0)).set
        (g.chains.getD b default).last
        (g.next_stone.getD (g.chains.getD a default).last 0))
      (chainCells g b ++ chainCells g a)
      (g.chains.getD b default).origin (g.chains.getD a default).last
      { g.chains.getD a default with
        liberties := (g.chains.getD a default).liberties ∪
          (g.chains.getD b default).liberties
        origin := (g.chains.getD b default).origin
        num_stones := (g.chains.getD a default).num_stones +
          (g.chains.getD b default).num_stones }
      hlen' hfol hagree (Or.inl rfl) hlast' ⟨rfl, rfl, hua, rfl, rfl⟩
    have hndNew : (chainCells g b ++ chainCells g a).Nodup :=
      List.Nodup.append hcycb.nodup hcyca.nodup (fun x hxb hxa => hdisj x hxa hxb)
    have hneNew : (chainCells g b ++ chainCells g a) ≠ [] := by
      intro hcontra
      exact hcyca.ne (List.append_eq_nil.1 hcontra).2
    have hstonesEq : chain_stones ((g.next_stone.set (g.chains.getD a default).last
        (g.next_stone.getD (g.chains.getD b default).last 0)).set
        (g.chains.getD b default).last
        (g.next_stone.getD (g.chains.getD a default).last 0))
        (g.chains.getD b default).origin = chainCells g b ++ chainCells g a :=
      chain_stones_of_cyc ⟨hfol, hneNew, hndNew⟩
        (nodup_length_le _ _ hndNew (fun x hx => by
          rcases List.mem_append.1 hx with h | h
          · exact hwf.stone_lt hb hub h
          · exact hwf.stone_lt ha hua h))
    have hF : g.merge_strings a b = mergedGoban g a b
        { g.chains.getD a default with
          liberties := (g.chains.getD a default).liberties ∪
            (g.chains.getD b default).liberties
          origin := (g.chains.getD b default).origin
          num_stones := (g.chains.getD a default).num_stones +
            (g.chains.getD b default).num_stones }
        ((g.next_stone.set (g.chains.getD a default).last
          (g.next_stone.getD (g.chains.getD b default).last 0)).set
          (g.chains.getD b default).last
          (g.next_stone.getD (g.chains.getD a default).last 0))
        (chainCells g b ++ chainCells g a) := by
      unfold Goban.merge_strings Goban.update_chain_indexes_in_board Goban.put_chain_in_bin
      dsimp only
      rw [if_pos hor, if_pos hor]
      rw [getD_set_self _ _ _ _ ha, getD_set_ne _ _ _ _ _ hab]
      dsimp only
      rw [hstonesEq]
      rfl
    rw [hF]
    exact ⟨hmain.1, hmain.2.1, hmain.2.2.1, hmain.2.2.2.1,
      by rw [hmain.2.2.2.2.1]; exact hua, by rw [hmain.2.2.2.2.1], rfl, rfl,
      hmain.2.2.2.2.2⟩
  · -- chain a keeps its origin: cycle La ++ Lb, last becomes chain b's last
    have hfol : Follows ((g.next_stone.set (g.chains.getD a default).last
        (g.next_stone.getD (g.chains.getD b default).last 0)).set
        (g.chains.getD b default).last
        (g.next_stone.getD (g.chains.getD a default).last 0))
        (g.chains.getD a default).origin (chainCells g a ++ chainCells g b)
        (g.chains.getD a default).origin :=
      hfolab.append hfolba
    have hlast' : (chainCells g a ++ chainCells g b).getLast? =
        some (g.chains.getD b default).last := by
      rw [List.getLast?_append_of_ne_nil _ hcycb.ne]
      exact hwf.last_eq b hb hub
    have hmain := merged_wfcore g hwf a b ha hb hab hua hub hcol
      ((g.next_stone.set (g.chains.getD a default).last
        (g.next_stone.getD (g.chains.getD b default).last 0)).set
        (g.chains.getD b default).last
        (g.next_stone.getD (g.chains.getD a default).last 0))
      (chainCells g a ++ chainCells g b)
      (g.chains.getD a default).origin (g.chains.getD b default).last
      { g.chains.getD a default with
        liberties := (g.chains.getD a default).liberties ∪
          (g.chains.getD b default).liberties
        last := (g.chains.getD b default).last
        num_stones := (g.chains.getD a default).num_stones +
          (g.chains.getD b default).num_stones }
      hlen' hfol hagree (Or.inr rfl) hlast' ⟨rfl, rfl, hua, rfl, rfl⟩
    have hndNew : (chainCells g a ++ chainCells g b).Nodup :=
      List.Nodup.append hcyca.nodup hcycb.nodup (fun x hxa hxb => hdisj x hxa hxb)
    have hneNew : (chainCells g a ++ chainCells g b) ≠ [] := by
      intro hcontra
      exact hcycb.ne (List.append_eq_nil.1 hcontra).2
    have hstonesEq : chain_stones ((g.next_stone.set (g.chains.getD a default).last
        (g.next_stone.getD (g.chains.getD b default).last 0)).set
        (g.chains.getD b default).last
        (g.next_stone.getD (g.chains.getD a default).last 0))
        (g.chains.getD a default).origin = chainCells g a ++ chainCells g b :=
      chain_stones_of_cyc ⟨hfol, hneNew, hndNew⟩
        (nodup_length_le _ _ hndNew (fun x hx => by
          rcases List.mem_append.1 hx with h | h
          · exact hwf.stone_lt ha hua h
          · exact hwf.stone_lt hb hub h))
    have hF : g.merge_strings a b = mergedGoban g a b
        { g.chains.getD a default with
          liberties := (g.chains.getD a default).liberties ∪
            (g.chains.getD b default).liberties
          last := (g.chains.getD b default).last
          num_stones := (g.chains.getD a default).num_stones +
            (g.chains.getD b default).num_stones }
        ((g.next_stone.set (g.chains.getD a default).last
          (g.next_stone.getD (g.chains.getD b default).last 0)).set
          (g.chains.getD b default).last
          (g.next_stone.getD (g.chains.getD a default).last 0))
        (chainCells g a ++ chainCells g b) := by
      unfold Goban.merge_strings Goban.update_chain_indexes_in_board Goban.put_chain_in_bin
      dsimp only
      rw [if_neg hor, if_neg hor]
      rw [getD_set_self _ _ _ _ ha, getD_set_ne _ _ _ _ _ hab]
      dsimp only
      rw [hstonesEq]
      rfl
    rw [hF]
    exact ⟨hmain.1, hmain.2.1, hmain.2.2.1, hmain.2.2.2.1,
      by rw [hmain.2.2.2.2.1]; exact hua, by rw [hmain.2.2.2.2.1], rfl, rfl,
      hmain.2.2.2.2.2⟩

/-! ## Classification of neighbors and the placement theorem -/

theorem classify_neighbors_spec (g : Goban) (color : Color) (neigh : List Nat) :
    (g.classify_neighbors color neigh).1.Nodup ∧
    (∀ id ∈ (g.classify_neighbors color neigh).1,
      (g.chains.getD id default).color = color ∧
      ∃ n, g.board.getD n none = some id) := by
  unfold Goban.classify_neighbors
  refine foldl_preserve (fun (acc : List Nat × List Nat × List Nat) =>
    acc.1.Nodup ∧ ∀ id ∈ acc.1, (g.chains.getD id default).color = color ∧
      ∃ n, g.board.getD n none = some id) _ ?_ neigh ([], [], []) (by simp)
  rintro ⟨same, opp, libs⟩ n ⟨hnd, hprops⟩
  dsimp only
  cases hbn : g.board.getD n none with
  | none => exact ⟨hnd, hprops⟩
  | some id =>
    dsimp only
    by_cases hcol : (g.chains.getD id default).color = color
    · rw [if_pos hcol]
      by_cases hmem : id ∈ same
      · rw [if_pos hmem]
        exact ⟨hnd, hprops⟩
      · rw [if_neg hmem]
        refine ⟨List.Nodup.append hnd (by simp) ?_, ?_⟩
        · intro x hx hxid
          have hxe : x = id := by simpa using hxid
          exact hmem (hxe ▸ hx)
        · intro id' hid'
          rcases List.mem_append.1 hid' with h | h
          · exact hprops id' h
          · have : id' = id := by simpa using h
            exact this ▸ ⟨hcol, n, hbn⟩
    · rw [if_neg hcol]
      by_cases hmem : id ∈ opp
      · rw [if_pos hmem]
        exact ⟨hnd, hprops⟩
      · rw [if_neg hmem]
        exact ⟨hnd, hprops⟩

theorem merge_fold_spec (g0 : Goban) (color : Color) (p : Nat) :
    ∀ (rem : List Nat) (gc : Goban) (t : Nat),
      GobanWFcore gc →
      gc.chains.length = g0.chains.length →
      gc.size = g0.size →
      gc.zobrist_hash = g0.zobrist_hash →
      (∀ j, cellColor gc j = cellColor g0 j) →
      t < gc.chains.length →
      (gc.chains.getD t default).used = true →
      (gc.chains.getD t default).color = color →
      gc.board.getD p none = some t →
      rem.Nodup →
      (∀ id ∈ rem, id < gc.chains.length ∧ (gc.chains.getD id default).used = true ∧
        (gc.chains.getD id default).color = color ∧ id ≠ t) →
      GobanWFcore (gc.merge_fold t rem).1 ∧
      (gc.merge_fold t rem).1.chains.length = g0.chains.length ∧
      (gc.merge_fold t rem).1.size = g0.size ∧
      (gc.merge_fold t rem).1.zobrist_hash = g0.zobrist_hash ∧
      (∀ j, cellColor (gc.merge_fold t rem).1 j = cellColor g0 j) ∧
      (gc.merge_fold t rem).2 < (gc.merge_fold t rem).1.chains.length ∧
      ((gc.merge_fold t rem).1.chains.getD (gc.merge_fold t rem).2 default).used = true ∧
      ((gc.merge_fold t rem).1.chains.getD (gc.merge_fold t rem).2 default).color = color ∧
      (gc.merge_fold t rem).1.board.getD p none = some (gc.merge_fold t rem).2
  | [], gc, t => by
    intro hwf hlen hsize hhash hcell hlt hu hcol hbd _ _
    exact ⟨hwf, hlen, hsize, hhash, hcell, hlt, hu, hcol, hbd⟩
  | adj :: rem, gc, t => by
    intro hwf hlen hsize hhash hcell hlt hu hcol hbd hnd hrem
    obtain ⟨hadj_lt, hadj_u, hadj_col, hadj_ne⟩ := hrem adj (by simp)
    have hndrem : rem.Nodup := (List.nodup_cons.1 hnd).2
    have hadj_notin : adj ∉ rem := (List.nodup_cons.1 hnd).1
    show GobanWFcore ((gc.merge_fold t (adj :: rem)).1) ∧ _
    unfold Goban.merge_fold
    simp only [List.foldl]
    by_cases hcmp : (gc.chains.getD adj default).number_of_liberties <
        (gc.chains.getD t default).number_of_liberties
    · rw [if_pos hcmp]
      have hms := merge_strings_spec gc hwf t adj hlt hadj_lt
        (fun he => hadj_ne he.symm) hu hadj_u (by rw [hadj_col, hcol])
      have hres := merge_fold_spec g0 color p rem (gc.merge_strings t adj) t
        hms.1
        (hms.2.1.trans hlen)
        (hms.2.2.2.2.2.2.1.trans hsize)
        (hms.2.2.2.2.2.2.2.1.trans hhash)
        (fun j => (hms.2.2.1 j).trans (hcell j))
        (by rw [hms.2.1]; exact hlt)
        hms.2.2.2.2.1
        (by rw [hms.2.2.2.2.2.1]; exact hcol)
        (by
          rw [hms.2.2.2.1 p, hbd, if_neg]
          intro hc
          exact hadj_ne (Option.some.inj hc).symm)
        hndrem
        (fun id hid => by
          obtain ⟨h1, h2, h3, h4⟩ := hrem id (by simp [hid])
          have hne_adj : id ≠ adj := fun he => hadj_notin (he ▸ hid)
          rw [hms.2.2.2.2.2.2.2.2 id h4 hne_adj]
          exact ⟨by rw [hms.2.1]; exact h1, h2, h3, h4⟩)
      exact hres
    · rw [if_neg hcmp]
      have hms := merge_strings_spec gc hwf adj t hadj_lt hlt hadj_ne hadj_u hu
        (by rw [hadj_col, hcol])
      have hres := merge_fold_spec g0 color p rem (gc.merge_strings adj t) adj
        hms.1
        (hms.2.1.trans hlen)
        (hms.2.2.2.2.2.2.1.trans hsize)
        (hms.2.2.2.2.2.2.2.1.trans hhash)
        (fun j => (hms.2.2.1 j).trans (hcell j))
        (by rw [hms.2.1]; exact hadj_lt)
        hms.2.2.2.2.1
        (by rw [hms.2.2.2.2.2.1]; exact hadj_col)
        (by rw [hms.2.2.2.1 p, hbd, if_pos rfl])
        hndrem
        (fun id hid => by
          obtain ⟨h1, h2, h3, h4⟩ := hrem id (by simp [hid])
          have hne_adj : id ≠ adj := fun he => hadj_notin (he ▸ hid)
          rw [hms.2.2.2.2.2.2.2.2 id hne_adj h4]
          exact ⟨by rw [hms.2.1]; exact h1, h2, h3, hne_adj⟩)
      exact hres

theorem two_to_1dim_lt (size : Size) (c : Coord) (h1 : c.1 < size.1) (h2 : c.2 < size.2)
    (hh : size.1 ≤ 19) (hw : size.2 ≤ 19) : two_to_1dim size c < BOARD_MAX_LENGTH := by
  unfold two_to_1dim BOARD_MAX_LENGTH
  have h3 : c.1 * size.2 + c.2 < (c.1 + 1) * size.2 := by
    rw [Nat.succ_mul]
    exact Nat.add_lt_add_left h2 _
  have h4 : (c.1 + 1) * size.2 ≤ size.1 * size.2 :=
    Nat.mul_le_mul_right _ h1
  have h5 : size.1 * size.2 ≤ 19 * 19 := Nat.mul_le_mul hh hw
  omega

theorem wfcore_hash_irrel (g2 : Goban) (h : GobanWFcore g2) (x : Nat) :
    GobanWFcore { g2 with zobrist_hash := x } :=
  ⟨h.board_len, h.next_len, h.height_le, h.width_le, h.cells, h.cyc, h.owns,
    h.cover, h.last_eq, h.count⟩

theorem push_finish (g : Goban) (hwf : GobanWF g) (p : Nat) (color : Color)
    (hp : p < BOARD_MAX_LENGTH) (hemp : g.board.getD p none = none) (g2 : Goban)
    (hwf2 : GobanWFcore g2) (hsize2 : g2.size = g.size)
    (hhash2 : g2.zobrist_hash = g.zobrist_hash)
    (hcell2 : ∀ j, cellColor g2 j = if j = p then some color else cellColor g j) :
    GobanWF { g2 with zobrist_hash := Nat.xor g2.zobrist_hash (index_zobrist p color) } ∧
    ({ g2 with zobrist_hash :=
        (Nat.xor g2.zobrist_hash (index_zobrist p color)) } : Goban).size = g.size ∧
    (∀ j, cellColor { g2 with zobrist_hash :=
        (Nat.xor g2.zobrist_hash (index_zobrist p color)) } j =
      if j = p then some color else cellColor g j) := by
  have hcc : ∀ i, cellContrib { g2 with zobrist_hash :=
      (Nat.xor g2.zobrist_hash (index_zobrist p color)) } i = cellContrib g2 i :=
    fun i => rfl
  have hcp : cellContrib g p = 0 := by
    unfold cellContrib cellColor
    rw [hemp]
    rfl
  have hcp2 : cellContrib g2 p = index_zobrist p color := by
    unfold cellContrib
    rw [show cellColor g2 p = some color from by rw [hcell2 p, if_pos rfl]]
  have hupd : hashOfBoard g2 =
      Nat.xor (Nat.xor (hashOfBoard g) (cellContrib g p)) (cellContrib g2 p) :=
    xor_fold_update hp (fun j hj => by
      unfold cellContrib
      rw [hcell2 j, if_neg hj])
  refine ⟨⟨wfcore_hash_irrel g2 hwf2 _, ?_⟩, hsize2, fun j => hcell2 j⟩
  show Nat.xor g2.zobrist_hash (index_zobrist p color) = hashOfBoard _
  have hsame : hashOfBoard { g2 with zobrist_hash :=
      (Nat.xor g2.zobrist_hash (index_zobrist p color)) } = hashOfBoard g2 :=
    xor_fold_congr (fun j _ => hcc j)
  rw [hsame, hupd, hcp, hcp2, nxor_zero, hhash2, hwf.hash_eq]

theorem push_spec (g : Goban) (hwf : GobanWF g) (point : Coord) (color : Color)
    (h1 : point.1 < g.size.1) (h2 : point.2 < g.size.2)
    (hemp : g.board.getD (two_to_1dim g.size point) none = none) :
    GobanWF (g.push point color) ∧
    (g.push point color).size = g.size ∧
    (∀ j, cellColor (g.push point color) j =
      if j = two_to_1dim g.size point then some color else cellColor g j) := by
  have hcore := hwf.toGobanWFcore
  have hp : two_to_1dim g.size point < BOARD_MAX_LENGTH :=
    two_to_1dim_lt g.size point h1 h2 hcore.height_le hcore.width_le
  have hclsfull := classify_neighbors_spec g color
    (g.neighbors_idx (two_to_1dim g.size point))
  unfold Goban.push Goban.push_wth_feedback
  dsimp only
  rcases hc : g.classify_neighbors color (g.neighbors_idx (two_to_1dim g.size point))
    with ⟨same, opp, libs⟩
  rw [hc] at hclsfull
  dsimp only
  have hlib : LibOnly g (g.remove_opposite_liberties (two_to_1dim g.size point) opp).1 :=
    remove_opposite_liberties_libOnly g _ opp
  rcases hro : g.remove_opposite_liberties (two_to_1dim g.size point) opp with ⟨g1, dead⟩
  rw [hro] at hlib
  dsimp only at hlib ⊢
  have hwf1 : GobanWFcore g1 := hlib.wfcore hcore
  have hemp1 : g1.board.getD (two_to_1dim g.size point) none = none := by
    rw [hlib.board]; exact hemp
  have hsize1 : g1.size = g.size := hlib.size
  have hhash1 : g1.zobrist_hash = g.zobrist_hash := hlib.hash
  have hcell1 : ∀ j, cellColor g1 j = cellColor g j := hlib.cellColor_eq
  have hsameprops : ∀ id ∈ same, id < g1.chains.length ∧
      (g1.chains.getD id default).used = true ∧
      (g1.chains.getD id default).color = color := by
    intro id hid
    obtain ⟨hcol, n, hbn⟩ := hclsfull.2 id hid
    obtain ⟨hlt, hu⟩ := hcore.cells n id hbn
    exact ⟨by rw [hlib.len]; exact hlt,
      by rw [(hlib.fields id).2.2.2.1]; exact hu,
      by rw [(hlib.fields id).1]; exact hcol⟩
  cases same with
  | nil =>
    dsimp only
    rcases hcc : g1.create_chain (two_to_1dim g.size point) color libs with ⟨g2c, idx⟩
    dsimp only
    have hspec := create_chain_spec g1 (two_to_1dim g.size point) color libs hwf1 hp
    rw [hcc] at hspec
    dsimp only at hspec
    have hg2c : g2c = createdGoban g1 (two_to_1dim g.size point) color libs := hspec.2
    rw [hg2c]
    exact push_finish g hwf _ color hp hemp _
      (by exact created_wfcore g1 _ color libs hwf1 hp hemp1)
      (by exact hsize1)
      (by exact hhash1)
      (fun j => by
        rw [created_cellColor g1 _ color libs hwf1 hp j]
        by_cases hj : j = two_to_1dim g.size point
        · rw [if_pos hj, if_pos hj]
        · rw [if_neg hj, if_neg hj, hcell1 j])
  | cons s1 rest =>
    cases rest with
    | nil =>
      dsimp only
      obtain ⟨hs1_lt, hs1_u, hs1_col⟩ := hsameprops s1 (by simp)
      have hga : LibOnly g1 { g1 with chains := (g1.chains.set s1 (((g1.chains.getD s1 default).remove_liberty (two_to_1dim g.size point)).union_liberties_slice libs)) } :=
        LibOnly.set_lib g1 s1 _
      have hwfga := hga.wfcore hwf1
      have hcase := case1_spec _ hwfga s1 (two_to_1dim g.size point)
        (by rw [hga.len]; exact hs1_lt)
        (by rw [(hga.fields s1).2.2.2.1]; exact hs1_u)
        hp
        (by rw [hga.board]; exact hemp1)
      refine push_finish g hwf _ color hp hemp _
        (by exact hcase.1)
        (by exact (add_stone_size _ s1 _).trans ((hga.size).trans hsize1))
        (by exact (add_stone_hash _ s1 _).trans ((hga.hash).trans hhash1))
        (fun j => by
          show cellColor { ({ g1 with chains := (g1.chains.set s1
            (((g1.chains.getD s1 default).remove_liberty
              (two_to_1dim g.size point)).union_liberties_slice
              libs)) } : Goban).add_stone_to_chain s1 (two_to_1dim g.size point) with
            board := ((({ g1 with chains := (g1.chains.set s1
              (((g1.chains.getD s1 default).remove_liberty
                (two_to_1dim g.size point)).union_liberties_slice
                libs)) } : Goban).add_stone_to_chain s1
                (two_to_1dim g.size point)).board.set
              (two_to_1dim g.size point) (some s1)) } j =
            if j = two_to_1dim g.size point then some color else cellColor g j
          rw [hcase.2 j]
          by_cases hj : j = two_to_1dim g.size point
          · rw [if_pos hj, if_pos hj, (hga.fields s1).1, hs1_col]
          · rw [if_neg hj, if_neg hj, hga.cellColor_eq j, hcell1 j])
    | cons s2 rest2 =>
      dsimp only
      rcases hcc : g1.create_chain (two_to_1dim g.size point) color libs with ⟨ga2, t0⟩
      dsimp only
      have hspec := create_chain_spec g1 (two_to_1dim g.size point) color libs hwf1 hp
      rw [hcc] at hspec
      dsimp only at hspec
      have hga2 : ga2 = createdGoban g1 (two_to_1dim g.size point) color libs := hspec.2
      have ht0 : t0 = g1.chains.length := hspec.1
      have hwfga2 : GobanWFcore ga2 := by
        rw [hga2]
        exact created_wfcore g1 _ color libs hwf1 hp hemp1
      have hcellga2 : ∀ j, cellColor ga2 j =
          if j = two_to_1dim g.size point then some color else cellColor g j := by
        intro j
        rw [hga2, created_cellColor g1 _ color libs hwf1 hp j]
        by_cases hj : j = two_to_1dim g.size point
        · rw [if_pos hj, if_pos hj]
        · rw [if_neg hj, if_neg hj, hcell1 j]
      have hfold := merge_fold_spec ga2 color (two_to_1dim g.size point)
        (s1 :: s2 :: rest2) ga2 t0
        hwfga2 rfl rfl rfl (fun j => rfl)
        (by
          rw [hga2, ht0]
          show g1.chains.length < (createdGoban g1 _ color libs).chains.length
          simp [createdGoban])
        (by rw [hga2, ht0, created_chains_getD_len]; rfl)
        (by rw [hga2, ht0, created_chains_getD_len]; rfl)
        (by
          rw [hga2, ht0, created_board_getD g1 _ color libs hwf1 hp, if_pos rfl])
        hclsfull.1
        (fun id hid => by
          obtain ⟨hlt, hu, hcol⟩ := hsameprops id hid
          have hlt2 : id < g1.chains.length := hlt
          refine ⟨?_, ?_, ?_, ?_⟩
          · rw [hga2]
            show id < (createdGoban g1 _ color libs).chains.length
            simp only [createdGoban, List.length_append, List.length_singleton]
            omega
          · rw [hga2, created_chains_getD_lt g1 _ color libs hlt2]
            exact hu
          · rw [hga2, created_chains_getD_lt g1 _ color libs hlt2]
            exact hcol
          · rw [ht0]
            exact Nat.ne_of_lt hlt2)
      rcases hmf : ga2.merge_fold t0 (s1 :: s2 :: rest2) with ⟨gb, t⟩
      rw [hmf] at hfold
      dsimp only at hfold ⊢
      have hfin : LibOnly gb { gb with chains := (gb.chains.set t ((gb.chains.getD t default).remove_liberty (two_to_1dim g.size point))) } :=
        LibOnly.set_lib gb t _
      exact push_finish g hwf _ color hp hemp _
        (by exact hfin.wfcore hfold.1)
        (by
          refine hfin.size.trans ((hfold.2.2.1).trans ?_)
          rw [hga2]
          exact hsize1)
        (by
          refine hfin.hash.trans ((hfold.2.2.2.1).trans ?_)
          rw [hga2]
          exact hhash1)
        (fun j => by
          rw [show cellColor _ j = cellColor { gb with chains := (gb.chains.set t
            ((gb.chains.getD t default).remove_liberty
              (two_to_1dim g.size point))) } j from rfl]
          rw [hfin.cellColor_eq j, hfold.2.2.2.2.1 j, hcellga2 j])

/-! ## Chain removal preserves well-formedness -/

theorem xorList_append_single (A : List Nat) (x : Nat) :
    xorList (A ++ [x]) = Nat.xor (xorList A) x := by
  induction A with
  | nil =>
    show Nat.xor x 0 = Nat.xor 0 x
    rw [nxor_zero, zero_nxor]
  | cons a A ih =>
    show Nat.xor a (xorList (A ++ [x])) = Nat.xor (Nat.xor a (xorList A)) x
    rw [ih, nxor_assoc]

theorem chains_set_addlib (cs : List Chain) (n s : Nat) :
    (cs.set n ((cs.getD n default).add_liberty s)).length = cs.length ∧
    (∀ id, chainEqExceptLib (cs.getD id default)
      ((cs.set n ((cs.getD n default).add_liberty s)).getD id default)) := by
  refine ⟨by rw [List.length_set], fun id => ?_⟩
  by_cases hin : id = n
  · subst hin
    by_cases hlt : id < cs.length
    · rw [getD_set_self _ _ _ _ hlt]
      exact ⟨rfl, rfl, rfl, rfl, rfl⟩
    · rw [List.set_eq_of_length_le (Nat.le_of_not_lt hlt)]
      exact chainEqExceptLib_refl _
  · rw [getD_set_ne _ _ _ _ _ (fun he => hin he.symm)]
    exact chainEqExceptLib_refl _

theorem chains_addlib_fold (s : Nat) :
    ∀ (l : List Nat) (cs : List Chain),
      ((l.foldl (fun cs n => cs.set n ((cs.getD n default).add_liberty s)) cs).length =
        cs.length) ∧
      (∀ id, chainEqExceptLib (cs.getD id default)
        ((l.foldl (fun cs n => cs.set n ((cs.getD n default).add_liberty s)) cs).getD
          id default))
  | [], cs => ⟨rfl, fun _ => chainEqExceptLib_refl _⟩
  | n :: l, cs => by
    obtain ⟨hl, hf⟩ := chains_addlib_fold s l
      (cs.set n ((cs.getD n default).add_liberty s))
    obtain ⟨hl0, hf0⟩ := chains_set_addlib cs n s
    exact ⟨by simp only [List.foldl]; rw [hl, hl0],
      fun id => by
        simp only [List.foldl]
        exact chainEqExceptLib_trans (hf0 id) (hf id)⟩

theorem remove_fold (g : Goban) (r : Nat) (color : Color)
    (hg361 : g.board.length = BOARD_MAX_LENGTH) :
    ∀ (Q : List Nat) (gc : Goban) (P : List Nat),
      (∀ s ∈ Q, s < BOARD_MAX_LENGTH) →
      gc.board.length = g.board.length →
      gc.next_stone = g.next_stone →
      gc.size = g.size →
      gc.chains.length = g.chains.length →
      (∀ id, chainEqExceptLib (g.chains.getD id default) (gc.chains.getD id default)) →
      (∀ j, gc.board.getD j none = if j ∈ P then none else g.board.getD j none) →
      gc.zobrist_hash = Nat.xor g.zobrist_hash
        (xorList (P.map (fun s => index_zobrist s color))) →
      (Q.foldl (fun h s => h.remove_chain_step r color s) gc).board.length =
        g.board.length ∧
      (Q.foldl (fun h s => h.remove_chain_step r color s) gc).next_stone =
        g.next_stone ∧
      (Q.foldl (fun h s => h.remove_chain_step r color s) gc).size = g.size ∧
      (Q.foldl (fun h s => h.remove_chain_step r color s) gc).chains.length =
        g.chains.length ∧
      (∀ id, chainEqExceptLib (g.chains.getD id default)
        ((Q.foldl (fun h s => h.remove_chain_step r color s) gc).chains.getD
          id default)) ∧
      (∀ j, (Q.foldl (fun h s => h.remove_chain_step r color s) gc).board.getD j none =
        if j ∈ P ++ Q then none else g.board.getD j none) ∧
      (Q.foldl (fun h s => h.remove_chain_step r color s) gc).zobrist_hash =
        Nat.xor g.zobrist_hash
          (xorList ((P ++ Q).map (fun s => index_zobrist s color)))
  | [], gc, P => by
    intro _ hbl hnx hsz hcl hfields hbd hhash
    rw [List.append_nil]
    exact ⟨hbl, hnx, hsz, hcl, hfields, hbd, hhash⟩
  | s :: Q, gc, P => by
    intro hQlt hbl hnx hsz hcl hfields hbd hhash
    have hslt : s < gc.board.length := by
      rw [hbl, hg361]
      exact hQlt s (by simp)
    obtain ⟨hal, haf⟩ := chains_addlib_fold s
      ((gc.get_neighbors_chains_ids_by_board_idx s).filter (fun id => id ≠ r)) gc.chains
    have hres := remove_fold g r color hg361 Q (gc.remove_chain_step r color s) (P ++ [s])
      (fun x hx => hQlt x (by simp [hx]))
      (by
        show (gc.board.set s none).length = _
        rw [List.length_set]
        exact hbl)
      (by show gc.next_stone = _; exact hnx)
      (by show gc.size = _; exact hsz)
      (by
        show (((gc.get_neighbors_chains_ids_by_board_idx s).filter
          (fun id => id ≠ r)).foldl
            (fun cs n => cs.set n ((cs.getD n default).add_liberty s)) gc.chains).length = _
        rw [hal, hcl])
      (fun id => by
        show chainEqExceptLib _ ((((gc.get_neighbors_chains_ids_by_board_idx s).filter
          (fun id => id ≠ r)).foldl
            (fun cs n => cs.set n ((cs.getD n default).add_liberty s)) gc.chains).getD
          id default)
        exact chainEqExceptLib_trans (hfields id) (haf id))
      (fun j => by
        show (gc.board.set s none).getD j none = _
        by_cases hjs : j = s
        · subst hjs
          rw [getD_set_self _ _ _ _ hslt, if_pos (by simp)]
        · rw [getD_set_ne _ _ _ _ _ (fun he => hjs he.symm), hbd j]
          by_cases hjP : j ∈ P
          · rw [if_pos hjP, if_pos (by simp [hjP])]
          · rw [if_neg hjP, if_neg (by simp [hjP, hjs])]
      )
      (by
        show Nat.xor gc.zobrist_hash (index_zobrist s color) = _
        rw [hhash]
        rw [show (P ++ [s]).map (fun s => index_zobrist s color) =
          P.map (fun s => index_zobrist s color) ++ [index_zobrist s color] from by
            rw [List.map_append]
            rfl]
        rw [xorList_append_single, nxor_assoc])
    have hPQ : P ++ s :: Q = (P ++ [s]) ++ Q := by
      rw [List.append_assoc]
      rfl
    rw [hPQ]
    exact hres

/-- Assembling `Goban::remove_chain`: after the stone loop has cleared
the cycle's cells and undone their hash contributions, tombstoning the
slot restores full well-formedness. -/
theorem removed_wfcore (g gf : Goban) (hwf : GobanWF g) (r : Nat)
    (hr : r < g.chains.length) (hur : (g.chains.getD r default).used = true)
    (hbl : gf.board.length = g.board.length)
    (hnx : gf.next_stone = g.next_stone)
    (hsz : gf.size = g.size)
    (hcl : gf.chains.length = g.chains.length)
    (hfields : ∀ id, chainEqExceptLib (g.chains.getD id default) (gf.chains.getD id default))
    (hbd : ∀ j, gf.board.getD j none =
      if j ∈ chainCells g r then none else g.board.getD j none)
    (hhash : gf.zobrist_hash = Nat.xor g.zobrist_hash
      (xorList ((chainCells g r).map
        (fun s => index_zobrist s (g.chains.getD r default).color)))) :
    GobanWF (gf.put_chain_in_bin r) ∧ (gf.put_chain_in_bin r).size = g.size ∧
    (∀ j, cellColor (gf.put_chain_in_bin r) j =
      if j ∈ chainCells g r then none else cellColor g j) := by
  have hcyc := hwf.cyc r hr hur
  have hrf : r < gf.chains.length := by rw [hcl]; exact hr
  -- the chain pool of the final state, slot by slot
  have hch : ∀ id, id ≠ r →
      (gf.put_chain_in_bin r).chains.getD id default = gf.chains.getD id default := by
    intro id hid
    show (gf.chains.set r _).getD id default = _
    exact getD_set_ne _ _ _ _ _ (fun he => hid he.symm)
  have hchr : (gf.put_chain_in_bin r).chains.getD r default =
      { gf.chains.getD r default with used := false } := by
    show (gf.chains.set r _).getD r default = _
    exact getD_set_self _ _ _ _ hrf
  have hclen : (gf.put_chain_in_bin r).chains.length = g.chains.length := by
    show (gf.chains.set r _).length = _
    rw [List.length_set, hcl]
  -- chains other than `r` keep their cycles
  have hcells : ∀ id, id ≠ r → chainCells (gf.put_chain_in_bin r) id = chainCells g id := by
    intro id hid
    unfold chainCells
    rw [hch id hid]
    show chain_stones gf.next_stone _ = _
    rw [hnx, (hfields id).2.1]
  -- cells outside the removed cycle keep their owner
  have hkeep : ∀ j id, (gf.put_chain_in_bin r).board.getD j none = some id →
      j ∉ chainCells g r ∧ g.board.getD j none = some id ∧ id ≠ r := by
    intro j id hj
    have hj' : gf.board.getD j none = some id := hj
    rw [hbd j] at hj'
    by_cases hjS : j ∈ chainCells g r
    · rw [if_pos hjS] at hj'
      exact Option.noConfusion hj'
    · rw [if_neg hjS] at hj'
      refine ⟨hjS, hj', ?_⟩
      intro he
      exact hjS (hwf.cover j r (he ▸ hj'))
  -- the cell-color formula for the final state
  have hcc : ∀ j, cellColor (gf.put_chain_in_bin r) j =
      if j ∈ chainCells g r then none else cellColor g j := by
    intro j
    unfold cellColor
    have hbj : (gf.put_chain_in_bin r).board.getD j none =
        if j ∈ chainCells g r then none else g.board.getD j none := hbd j
    by_cases hjS : j ∈ chainCells g r
    · rw [if_pos hjS] at hbj ⊢
      rw [hbj]
      rfl
    · rw [if_neg hjS] at hbj ⊢
      rw [hbj]
      cases hgj : g.board.getD j none with
      | none => rfl
      | some id =>
        have hidr : id ≠ r := fun he => hjS (hwf.cover j r (he ▸ hgj))
        show some ((gf.put_chain_in_bin r).chains.getD id default).color = _
        rw [hch id hidr, (hfields id).1]
        rfl
  constructor
  · refine ⟨⟨?_, ?_, ?_, ?_, ?_, ?_, ?_, ?_, ?_, ?_⟩, ?_⟩
    · show gf.board.length = _
      rw [hbl, hwf.board_len]
    · show gf.next_stone.length = _
      rw [hnx, hwf.next_len]
    · show gf.size.1 ≤ 19
      rw [hsz]; exact hwf.height_le
    · show gf.size.2 ≤ 19
      rw [hsz]; exact hwf.width_le
    · intro i id hbi
      obtain ⟨_, hgi, hidr⟩ := hkeep i id hbi
      obtain ⟨hlt, hu⟩ := hwf.cells i id hgi
      refine ⟨by rw [hclen]; exact hlt, ?_⟩
      rw [hch id hidr, (hfields id).2.2.2.1]
      exact hu
    · intro id hid hu
      by_cases hidr : id = r
      · exfalso
        rw [hidr, hchr] at hu
        exact Bool.noConfusion hu
      · rw [hch id hidr, (hfields id).2.2.2.1] at hu
        have hid' : id < g.chains.length := by rw [hclen] at hid; exact hid
        have := hwf.cyc id hid' hu
        rw [hcells id hidr, hch id hidr]
        have hnx' : (gf.put_chain_in_bin r).next_stone = g.next_stone := hnx
        rw [hnx', (hfields id).2.1]
        exact this
    · intro id hid hu s hs
      by_cases hidr : id = r
      · exfalso
        rw [hidr, hchr] at hu
        exact Bool.noConfusion hu
      · rw [hch id hidr, (hfields id).2.2.2.1] at hu
        have hid' : id < g.chains.length := by rw [hclen] at hid; exact hid
        rw [hcells id hidr] at hs
        have hsg := hwf.owns id hid' hu s hs
        have hsnr : s ∉ chainCells g r := by
          intro hsr
          exact hidr (hwf.stones_disjoint hid' hu hr hur hs hsr)
        show gf.board.getD s none = some id
        rw [hbd s, if_neg hsnr]
        exact hsg
    · intro i id hbi
      obtain ⟨_, hgi, hidr⟩ := hkeep i id hbi
      rw [hcells id hidr]
      exact hwf.cover i id hgi
    · intro id hid hu
      by_cases hidr : id = r
      · exfalso
        rw [hidr, hchr] at hu
        exact Bool.noConfusion hu
      · rw [hch id hidr, (hfields id).2.2.2.1] at hu
        have hid' : id < g.chains.length := by rw [hclen] at hid; exact hid
        rw [hcells id hidr, hch id hidr, (hfields id).2.2.1]
        exact hwf.last_eq id hid' hu
    · intro id hid hu
      by_cases hidr : id = r
      · exfalso
        rw [hidr, hchr] at hu
        exact Bool.noConfusion hu
      · rw [hch id hidr, (hfields id).2.2.2.1] at hu
        have hid' : id < g.chains.length := by rw [hclen] at hid; exact hid
        rw [hcells id hidr, hch id hidr, (hfields id).2.2.2.2]
        exact hwf.count id hid' hu
    · -- the Zobrist-hash invariant
      have hmask := xor_fold_mask (chainCells g r) (cellContrib g)
        (cellContrib (gf.put_chain_in_bin r)) hcyc.nodup
        (fun j hj => by
          unfold cellContrib
          rw [hcc j, if_neg hj])
        (fun j hj => ⟨hwf.stone_lt hr hur hj, by
          unfold cellContrib
          rw [hcc j, if_pos hj]⟩)
      have hmap : (chainCells g r).map (cellContrib g) =
          (chainCells g r).map (fun s => index_zobrist s (g.chains.getD r default).color) := by
        apply List.map_congr_left
        intro s hs
        unfold cellContrib cellColor
        rw [hwf.owns r hr hur s hs]
        rfl
      show gf.zobrist_hash = hashOfBoard (gf.put_chain_in_bin r)
      unfold hashOfBoard
      rw [hmask, hmap, hhash, hwf.hash_eq]
      rfl
  · exact ⟨hsz, hcc⟩

/-- `Goban::remove_chain` preserves well-formedness, keeps the size, and
clears exactly the removed chain's cells. -/
theorem remove_chain_spec (g : Goban) (hwf : GobanWF g) (r : Nat)
    (hr : r < g.chains.length) (hur : (g.chains.getD r default).used = true) :
    GobanWF (g.remove_chain r) ∧ (g.remove_chain r).size = g.size ∧
    (∀ j, cellColor (g.remove_chain r) j =
      if j ∈ chainCells g r then none else cellColor g j) := by
  have hSlt : ∀ s ∈ chainCells g r, s < BOARD_MAX_LENGTH :=
    fun s hs => hwf.stone_lt hr hur hs
  have hres := remove_fold g r (g.chains.getD r default).color hwf.board_len
    (chainCells g r) g []
    hSlt rfl rfl rfl rfl (fun id => chainEqExceptLib_refl _)
    (fun j => by rw [if_neg (by simp)])
    (by
      show g.zobrist_hash = Nat.xor g.zobrist_hash (xorList [])
      rw [show xorList [] = 0 from rfl, nxor_zero])
  simp only [List.nil_append] at hres
  obtain ⟨hbl, hnx, hsz, hcl, hfields, hbd, hhash⟩ := hres
  exact removed_wfcore g _ hwf r hr hur hbl hnx hsz hcl hfields hbd hhash

theorem xor_fold_zero (s : Finset Nat) : s.fold Nat.xor 0 (fun _ => 0) = 0 := by
  induction s using Finset.induction_on with
  | empty => rfl
  | insert hx ih =>
    rw [Finset.fold_insert hx, ih]
    rfl

/-- A fresh goban is well-formed: the board is empty, the pool is empty
and the hash is zero. -/
theorem new_wf (s : Size) (hh : s.1 ≤ 19) (hw : s.2 ≤ 19) : GobanWF (Goban.new s) := by
  have hbnone : ∀ i, (Goban.new s).board.getD i none = none := by
    intro i
    show (List.replicate BOARD_MAX_LENGTH (none : Option Nat)).getD i none = none
    rw [getD_replicate]
    exact ite_self none
  refine ⟨⟨?_, ?_, hh, hw, ?_, ?_, ?_, ?_, ?_, ?_⟩, ?_⟩
  · exact List.length_replicate _ _
  · exact List.length_replicate _ _
  · intro i id hbi
    rw [hbnone i] at hbi
    exact Option.noConfusion hbi
  · intro id hid _
    exact absurd hid (Nat.not_lt_zero id)
  · intro id hid _
    exact absurd hid (Nat.not_lt_zero id)
  · intro i id hbi
    rw [hbnone i] at hbi
    exact Option.noConfusion hbi
  · intro id hid _
    exact absurd hid (Nat.not_lt_zero id)
  · intro id hid _
    exact absurd hid (Nat.not_lt_zero id)
  · show 0 = hashOfBoard (Goban.new s)
    unfold hashOfBoard
    rw [xor_fold_congr (f := fun _ => 0) (fun j _ => by
      unfold cellContrib cellColor
      rw [hbnone j]
      rfl)]
    rw [xor_fold_zero]

/-- The gobans reachable from a fresh board by legal placements and
chain removals (the mutation interface of `goban.rs`). -/
inductive Reachable : Goban → Prop where
  | new : ∀ s : Size, s.1 ≤ 19 → s.2 ≤ 19 → Reachable (Goban.new s)
  | push : ∀ (g : Goban) (point : Coord) (color : Color), Reachable g →
      point.1 < g.size.1 → point.2 < g.size.2 →
      g.board.getD (two_to_1dim g.size point) none = none →
      Reachable (g.push point color)
  | remove : ∀ (g : Goban) (r : Nat), Reachable g → r < g.chains.length →
      (g.chains.getD r default).used = true →
      Reachable (g.remove_chain r)

/-- Every reachable goban is fully well-formed. -/
theorem reachable_wf : ∀ g : Goban, Reachable g → GobanWF g := by
  intro g h
  induction h with
  | new s hh hw => exact new_wf s hh hw
  | push g point color _ h1 h2 hemp ih => exact (push_spec g ih point color h1 h2 hemp).1
  | remove g r _ hr hur ih => exact (remove_chain_spec g ih r hr hur).1

/-! ## The claims -/

/-- C3: after every sequence of placements (`push`) and chain removals
(`remove_chain`) from a fresh board, the goban's `zobrist_hash` equals
the XOR over all occupied cells `i` of `zobrist[i, color(i)]`. -/
theorem goban_c3_zobrist_invariant (g : Goban) (h : Reachable g) :
    g.zobrist_hash = hashOfBoard g :=
  (reachable_wf g h).hash_eq

theorem goban_c3_zobrist_invariant_witness :
    Reachable ((Goban.new (19, 19)).push (3, 4) Color.black) ∧
      ((Goban.new (19, 19)).push (3, 4) Color.black).zobrist_hash =
        hashOfBoard ((Goban.new (19, 19)).push (3, 4) Color.black) :=
  have hr : Reachable ((Goban.new (19, 19)).push (3, 4) Color.black) :=
    Reachable.push _ _ _ (Reachable.new (19, 19) (by decide) (by decide))
      (by decide) (by decide) (by decide)
  ⟨hr, goban_c3_zobrist_invariant _ hr⟩

/-- `Game::try_play` returns the state unchanged alongside any error. -/
theorem try_play_err_frame (g : Game) (m : Move) (e : PlayError)
    (herr : (g.try_play m).1 = some e) : (g.try_play m).2 = g := by
  unfold Game.try_play at herr ⊢
  by_cases h2 : g.passes = 2
  · rw [if_pos h2]
  · rw [if_neg h2] at herr ⊢
    cases m with
    | pass => exact Option.noConfusion herr
    | resign p => exact Option.noConfusion herr
    | play x y =>
      dsimp only at herr ⊢
      by_cases hc : g.goban.get_color (x, y) ≠ none
      · rw [if_pos hc]
      · rw [if_neg hc] at herr ⊢
        cases hcp : g.check_point (x, y) with
        | some c => rfl
        | none =>
          rw [hcp] at herr
          exact Option.noConfusion herr

/-- C9: `try_play_color` overwrites the turn with the given color before
validating, so on every error the returned state is exactly the input
with the turn changed to that color — the failed call is not
state-preserving. -/
theorem game_c9_try_play_color_turn (g : Game) (color : Color) (m : Move)
    (e : PlayError) (herr : (g.try_play_color color m).1 = some e) :
    (g.try_play_color color m).2.turn = color ∧
      (g.try_play_color color m).2 = { g with turn := color } := by
  have hframe : (g.try_play_color color m).2 = { g with turn := color } :=
    try_play_err_frame { g with turn := color } m e herr
  exact ⟨by rw [hframe], hframe⟩

def gm9 : Game :=
  { Game.new (5, 5) { flag_illegal := ⟨true, true, true, true⟩ } with
      goban := (Goban.new (5, 5)).push (0, 0) Color.black }

theorem game_c9_try_play_color_turn_witness :
    (gm9.try_play_color Color.white (Move.play 0 0)).1 = some PlayError.pointNotEmpty ∧
      (gm9.try_play_color Color.white (Move.play 0 0)).2.turn = Color.white ∧
      (gm9.try_play_color Color.white (Move.play 0 0)).2 = { gm9 with turn := Color.white } :=
  ⟨by decide,
    game_c9_try_play_color_turn gm9 Color.white (Move.play 0 0) PlayError.pointNotEmpty
      (by decide)⟩

/-- C10: despite its name, `get_empty_idx` yields exactly the indexes of
the OCCUPIED cells over the whole backing array (and no empty-cell
index), while `get_empty_coords` yields the empty coordinates restricted
to the board's actual size. -/
theorem goban_c10_get_empty_idx_occupied (g : Goban)
    (hlen : g.board.length = BOARD_MAX_LENGTH) :
    (∀ i, i ∈ g.get_empty_idx ↔
        i < BOARD_MAX_LENGTH ∧ (g.board.getD i none).isSome = true) ∧
    (∀ c, c ∈ g.get_empty_coords ↔
        ∃ i, i < g.size.1 * g.size.2 ∧ i < BOARD_MAX_LENGTH ∧
          g.board.getD i none = none ∧ c = one_to_2dim g.size i) := by
  constructor
  · intro i
    rw [Goban.get_empty_idx, List.mem_filterMap]
    constructor
    · rintro ⟨⟨j, cell⟩, hmem, hf⟩
      cases cell with
      | none => exact Option.noConfusion hf
      | some id =>
        have hji : j = i := Option.some.inj hf
        subst hji
        rw [List.mem_enum_iff_getElem?] at hmem
        have hjlen : j < g.board.length := (List.getElem?_eq_some.mp hmem).1
        refine ⟨by rw [hlen] at hjlen; exact hjlen, ?_⟩
        rw [List.getD_eq_getElem?_getD, hmem]
        rfl
    · rintro ⟨hi, hsome⟩
      cases hb : g.board.getD i none with
      | none => rw [hb] at hsome; exact Bool.noConfusion hsome
      | some id =>
        refine ⟨(i, some id), ?_, rfl⟩
        rw [List.mem_enum_iff_getElem?]
        have hi' : i < g.board.length := by rw [hlen]; exact hi
        rw [List.getD_eq_getElem?_getD, List.getElem?_eq_getElem hi'] at hb
        rw [List.getElem?_eq_getElem hi']
        exact congrArg some hb
  · intro c
    rw [Goban.get_empty_coords, List.mem_filterMap]
    constructor
    · rintro ⟨⟨j, cell⟩, hmem, hf⟩
      cases cell with
      | some id => exact Option.noConfusion hf
      | none =>
        have hc : c = one_to_2dim g.size j := (Option.some.inj hf).symm
        rw [List.mem_enum_iff_getElem?, List.getElem?_take] at hmem
        by_cases hjsz : j < g.size.1 * g.size.2
        · rw [if_pos hjsz] at hmem
          have hjlen : j < g.board.length := (List.getElem?_eq_some.mp hmem).1
          refine ⟨j, hjsz, by rw [hlen] at hjlen; exact hjlen, ?_, hc⟩
          rw [List.getD_eq_getElem?_getD, hmem]
          rfl
        · rw [if_neg hjsz] at hmem
          exact Option.noConfusion hmem
    · rintro ⟨i, hisz, hi361, hemp, hc⟩
      refine ⟨(i, none), ?_, by rw [hc]⟩
      rw [List.mem_enum_iff_getElem?, List.getElem?_take, if_pos hisz]
      have hi' : i < g.board.length := by rw [hlen]; exact hi361
      rw [List.getD_eq_getElem?_getD, List.getElem?_eq_getElem hi'] at hemp
      rw [List.getElem?_eq_getElem hi']
      exact congrArg some hemp

theorem goban_c10_get_empty_idx_occupied_witness :
    ((Goban.new (5, 5)).push (1, 1) Color.black).board.length = BOARD_MAX_LENGTH ∧
      (∀ i, i ∈ ((Goban.new (5, 5)).push (1, 1) Color.black).get_empty_idx ↔
        i < BOARD_MAX_LENGTH ∧
          (((Goban.new (5, 5)).push (1, 1) Color.black).board.getD i none).isSome = true) :=
  ⟨by decide,
    (goban_c10_get_empty_idx_occupied ((Goban.new (5, 5)).push (1, 1) Color.black)
      (by decide)).1⟩

/-- C4: for a stone proposed on an empty in-bounds point (so each
adjacent chain holds at least one liberty), `check_suicide` returns true
iff the coordinate has no empty orthogonal neighbor, no same-color
neighbor chain has more than one liberty, and no opposite-color neighbor
chain has exactly one liberty. -/
theorem game_c4_check_suicide (g : Game) (stone : Stone)
    (hlib : ∀ ch ∈ g.goban.get_neighbors_chains stone.coord, 0 < ch.liberties.card) :
    g.check_suicide stone = true ↔
      (g.goban.get_liberties stone.coord = [] ∧
        (∀ ch ∈ g.goban.get_neighbors_chains stone.coord,
          ch.color = stone.color → ¬ 1 < ch.liberties.card) ∧
        (∀ ch ∈ g.goban.get_neighbors_chains stone.coord,
          ch.color ≠ stone.color → ¬ ch.liberties.card = 1)) := by
  unfold Game.check_suicide
  by_cases hl : g.goban.get_liberties stone.coord = []
  · have hhas : g.goban.has_liberties stone.coord = false := by
      unfold Goban.has_liberties
      rw [hl]
      rfl
    rw [hhas]
    simp only [Bool.false_eq_true, if_false]
    rw [Bool.not_eq_true', List.any_eq_false]
    constructor
    · intro h
      refine ⟨hl, ?_, ?_⟩
      · intro ch hch hsame
        have hthis := h ch hch
        rw [if_pos hsame] at hthis
        have hat : ch.is_atari = true := by
          cases hia : ch.is_atari with
          | false => exact absurd (by rw [hia]; rfl) hthis
          | true => rfl
        have h1 : ch.liberties.card = 1 := by
          unfold Chain.is_atari at hat
          exact beq_iff_eq.mp hat
        omega
      · intro ch hch hdiff
        have hthis := h ch hch
        rw [if_neg hdiff] at hthis
        intro h1
        exact hthis (by rw [show ch.is_atari = true from by unfold Chain.is_atari; rw [h1]; rfl])
    · rintro ⟨-, hsame, hdiff⟩ ch hch
      by_cases hcol : ch.color = stone.color
      · rw [if_pos hcol]
        have h0 := hlib ch hch
        have hle := hsame ch hch hcol
        have h1 : ch.liberties.card = 1 := by omega
        unfold Chain.is_atari
        rw [h1]
        decide
      · rw [if_neg hcol]
        have hne := hdiff ch hch hcol
        unfold Chain.is_atari
        exact fun hbe => hne (beq_iff_eq.mp hbe)
  · have hhas : g.goban.has_liberties stone.coord = true := by
      unfold Goban.has_liberties
      cases hie : (g.goban.get_liberties stone.coord).isEmpty with
      | false => rfl
      | true => exact absurd (List.isEmpty_iff.mp hie) hl
    rw [hhas]
    simp only [if_true]
    constructor
    · intro h
      exact Bool.noConfusion h
    · rintro ⟨h1, -, -⟩
      exact absurd h1 hl

def gm4 : Game :=
  { Game.new (5, 5) { flag_illegal := ⟨true, true, true, true⟩ } with
      goban := ((Goban.new (5, 5)).push (0, 1) Color.black).push (1, 0) Color.white }

theorem game_c4_check_suicide_witness :
    (∀ ch ∈ gm4.goban.get_neighbors_chains (1, 1), 0 < ch.liberties.card) ∧
      (gm4.check_suicide { coord := (1, 1), color := Color.black } = true ↔
        (gm4.goban.get_liberties (1, 1) = [] ∧
          (∀ ch ∈ gm4.goban.get_neighbors_chains (1, 1),
            ch.color = Color.black → ¬ 1 < ch.liberties.card) ∧
          (∀ ch ∈ gm4.goban.get_neighbors_chains (1, 1),
            ch.color ≠ Color.black → ¬ ch.liberties.card = 1))) :=
  ⟨by decide, game_c4_check_suicide gm4 { coord := (1, 1), color := Color.black } (by decide)⟩

/-- C5 (amended): `check_superko` returns true iff the stored last hash
is nonzero AND more than two position hashes have been recorded AND the
move would capture AND (the move point equals the ko point, or the
speculative replay's Zobrist hash is among the previously reached
hashes). In particular the claim's "iff would-capture and hash recurs"
reading misses the `last_hash` and `hashes.card` guards and the
`check_ko` disjunct. -/
theorem game_c5_check_superko_guarded (g : Game) (stone : Stone) :
    g.check_superko stone = true ↔
      (g.last_hash ≠ 0 ∧ 2 < g.hashes.card ∧ g.will_capture stone.coord = true ∧
        (g.check_ko stone = true ∨ g.play_for_verification stone.coord ∈ g.hashes)) := by
  unfold Game.check_superko
  by_cases hcond : g.last_hash = 0 ∨ g.hashes.card ≤ 2 ∨ (!g.will_capture stone.coord) = true
  · rw [if_pos hcond]
    constructor
    · intro h
      exact Bool.noConfusion h
    · rintro ⟨h1, h2, h3, -⟩
      rcases hcond with hc | hc | hc
      · exact absurd hc h1
      · omega
      · rw [h3] at hc
        exact Bool.noConfusion hc
  · rw [if_neg hcond]
    push_neg at hcond
    obtain ⟨h1, h2, h3⟩ := hcond
    have hwc : g.will_capture stone.coord = true := by
      cases hw : g.will_capture stone.coord with
      | true => rfl
      | false => exact absurd (by rw [hw]; rfl) h3
    rw [Bool.or_eq_true, decide_eq_true_iff]
    constructor
    · intro h
      exact ⟨h1, by omega, hwc, h⟩
    · rintro ⟨-, -, -, h⟩
      exact h

def gm5 : Game :=
  { Game.new (2, 2) { flag_illegal := ⟨true, true, true, true⟩ } with
      goban := ((Goban.new (2, 2)).push (0, 0) Color.black).push (1, 0) Color.white
      turn := Color.white
      last_hash := 12345
      hashes := insert (Nat.xor (index_zobrist 1 Color.white) (index_zobrist 2 Color.white)) ∅ }

/-- C5 (counterexample to the claim as stated): a capturing move whose
replayed hash is among the recorded hashes, yet `check_superko` returns
false because only one hash has been recorded (`hashes.card ≤ 2`). -/
theorem game_c5_check_superko_cex :
    gm5.will_capture (0, 1) = true ∧
      gm5.play_for_verification (0, 1) ∈ gm5.hashes ∧
      gm5.check_superko { coord := (0, 1), color := Color.white } = false := by
  decide

def g2c : Goban := ((Goban.new (5, 5)).push (0, 1) Color.black).push (1, 0) Color.black

/-- C2 (the code as written): White plays (0,0) against Black (0,1) and
(1,0); no opposite chain dies and the placed chain has zero liberties,
yet `remove_captured_stones_aux` with `suicide_allowed = true` returns
the state unchanged — the suicide branch tests `num_stones = 0`, which a
just-placed chain never satisfies, so the claimed retirement and
prisoner increment never happen. -/
theorem goban_c2_suicide_dead_code :
    (g2c.push_wth_feedback (0, 0) Color.white).1.1 = [] ∧
      ((g2c.push_wth_feedback (0, 0) Color.white).2.chains.getD
        (g2c.push_wth_feedback (0, 0) Color.white).1.2 default).liberties = ∅ ∧
      ((g2c.push_wth_feedback (0, 0) Color.white).2.remove_captured_stones_aux
          Color.white true (0, 0) [] (g2c.push_wth_feedback (0, 0) Color.white).1.2) =
        (((0, 0), none), (g2c.push_wth_feedback (0, 0) Color.white).2) ∧
      ((g2c.push_wth_feedback (0, 0) Color.white).2.board.getD 0 none).isSome = true := by
  decide

def g7 : Goban :=
  ((((Goban.new (5, 5)).push (0, 1) Color.black).push (1, 2) Color.black).push
    (2, 1) Color.black).push (1, 1) Color.white

/-- C7 (amended): in the claimed scenario exactly one chain of size one
dies and the ko point is (1,1), but the Black capture is credited in
prisoner field `.0`, not `.1`: the result is `((1, 0), some (1, 1))`. -/
theorem goban_c7_capture_scenario :
    (g7.push_wth_feedback (1, 0) Color.black).1.1 = [3] ∧
      ((g7.push_wth_feedback (1, 0) Color.black).2.chains.getD 3 default).num_stones = 1 ∧
      ((g7.push_wth_feedback (1, 0) Color.black).2.remove_captured_stones_aux
          Color.black false (0, 0) [3] (g7.push_wth_feedback (1, 0) Color.black).1.2).1 =
        ((1, 0), some (1, 1)) := by
  decide

/-- C7 (counterexample to the claim as stated): the returned prisoner
pair is not `(0, 1)`. -/
theorem goban_c7_capture_scenario_cex :
    ((g7.push_wth_feedback (1, 0) Color.black).2.remove_captured_stones_aux
        Color.black false (0, 0) (g7.push_wth_feedback (1, 0) Color.black).1.1
        (g7.push_wth_feedback (1, 0) Color.black).1.2).1.1 ≠ (0, 1) := by
  decide

theorem sqrt_361 : Nat.sqrt 361 = 19 := by
  have h1 : 19 ≤ Nat.sqrt 361 := Nat.le_sqrt.mpr (by norm_num)
  have h2 : Nat.sqrt 361 < 20 := Nat.sqrt_lt.mpr (by norm_num)
  omega

def g6 : Goban := (Goban.new (5, 5)).push (1, 1) Color.black

/-- C6 (the code as written): `to_vec` returns the full 361-entry backing
array, so `from_array(g.to_vec())` reinterprets it as a 19×19 board: the
Black stone played at (1,1) on a 5×5 goban comes back at (0,6), the
stone-set is not preserved (the hash happens to agree because the flat
index is unchanged). -/
theorem goban_c6_roundtrip_broken :
    g6.get_color (1, 1) = some Color.black ∧
      (Goban.from_array g6.to_vec).get_color (1, 1) = none ∧
      (Goban.from_array g6.to_vec).get_color (0, 6) = some Color.black ∧
      (Goban.from_array g6.to_vec).size = (19, 19) ∧ g6.size = (5, 5) ∧
      (Goban.from_array g6.to_vec).zobrist_hash = g6.zobrist_hash := by
  have hs : g6.to_vec.length.sqrt = 19 := by
    rw [show g6.to_vec.length = 361 from by decide]
    exact sqrt_361
  simp only [Goban.from_array, hs]
  decide

/-- The corner-scan abort test of `Game::check_eye` (`game.rs`): the
corner touches an enemy stone. -/
def eyeAbort (g : Game) (color : Color) (p : Coord) : Bool :=
  (g.goban.get_neighbors_stones p).any (fun st => st.color ≠ color)

/-- The diagonal-corner tally of `Game::check_eye` (`game.rs`): allied
corners plus off-board corners. -/
def eyeCorners (g : Game) (color : Color) (p : Coord) : Nat :=
  (g.helper_check_eye p color).1 + (g.helper_check_eye p color).2

/-- The corner scan of `check_eye` succeeds exactly when some prefix of
the corner list neither aborts nor tallies 2/3, and the next corner does
not abort and tallies 2 or 3. -/
theorem check_eye_loop_iff (g : Game) (color : Color) :
    ∀ L : List Coord, g.check_eye_loop color L = true ↔
      ∃ P c S, L = P ++ c :: S ∧
        (∀ p ∈ P, eyeAbort g color p = false ∧
          ¬(eyeCorners g color p = 3 ∨ eyeCorners g color p = 2)) ∧
        eyeAbort g color c = false ∧
        (eyeCorners g color c = 3 ∨ eyeCorners g color c = 2)
  | [] => by
    constructor
    · intro h
      exact Bool.noConfusion h
    · rintro ⟨P, c, S, heq, -, -, -⟩
      cases P with
      | nil => exact List.noConfusion heq
      | cons q Q => exact List.noConfusion heq
  | c0 :: rest => by
    show (if eyeAbort g color c0 = true
        then false
        else match g.helper_check_eye c0 color with
          | (ca, cof) =>
            if ca + cof = 3 ∨ ca + cof = 2 then true else g.check_eye_loop color rest) =
          true ↔ _
    by_cases hab : eyeAbort g color c0 = true
    · rw [if_pos hab]
      constructor
      · intro h
        exact Bool.noConfusion h
      · rintro ⟨P, c, S, heq, hP, hc, -⟩
        cases P with
        | nil =>
          have hcc : c = c0 := (List.cons.inj heq).1.symm
          rw [hcc] at hc
          rw [hc] at hab
          exact Bool.noConfusion hab
        | cons q Q =>
          have hqc : q = c0 := (List.cons.inj heq).1.symm
          have h0 := (hP q (by simp)).1
          rw [hqc] at h0
          rw [h0] at hab
          exact Bool.noConfusion hab
    · have hab' : eyeAbort g color c0 = false := by
        cases h : eyeAbort g color c0 with
        | false => rfl
        | true => exact absurd h hab
      rw [if_neg hab]
      rcases hhc : g.helper_check_eye c0 color with ⟨ca, cof⟩
      dsimp only
      have hcor : eyeCorners g color c0 = ca + cof := by
        unfold eyeCorners
        rw [hhc]
      by_cases ht : ca + cof = 3 ∨ ca + cof = 2
      · rw [if_pos ht]
        constructor
        · intro _
          exact ⟨[], c0, rest, rfl, by simp, hab', by rw [hcor]; exact ht⟩
        · intro _
          rfl
      · rw [if_neg ht]
        rw [check_eye_loop_iff g color rest]
        constructor
        · rintro ⟨P, c, S, heq, hP, hc, htal⟩
          refine ⟨c0 :: P, c, S, by rw [heq]; rfl, ?_, hc, htal⟩
          intro p hp
          rcases List.mem_cons.mp hp with hp0 | hpP
          · subst hp0
            exact ⟨hab', by rw [hcor]; exact ht⟩
          · exact hP p hpP
        · rintro ⟨P, c, S, heq, hP, hc, htal⟩
          cases P with
          | nil =>
            have hcc : c = c0 := (List.cons.inj heq).1.symm
            rw [hcc, hcor] at htal
            exact absurd htal ht
          | cons q Q =>
            obtain ⟨hqc, hrest⟩ := List.cons.inj heq
            exact ⟨Q, c, S, hrest, fun p hp => hP p (by simp [hp]), hc, htal⟩

/-- C8 (amended): for an empty coordinate whose in-bounds orthogonal
neighbors all carry the stone's color and whose corner tally is 2 or 3,
`check_eye` runs a first-match scan over the empty in-bounds diagonal
corners: it returns true iff the corner list splits as `P ++ c :: S`
where no corner of `P` touches an enemy stone or tallies 2/3, and `c`
touches no enemy stone and tallies 2 or 3 — the scan hard-aborts at an
enemy-adjacent corner and never re-checks the corner's own orthogonal
neighbors, unlike the claim's recursive predicate. -/
theorem game_c8_check_eye_scan (g : Game) (stone : Stone)
    (hemp : (g.goban.get_color stone.coord).isSome = false)
    (hnb : (g.goban.get_neighbors_points stone.coord).any
        (fun p => p.color ≠ some stone.color) = false)
    (htal : eyeCorners g stone.color stone.coord = 3 ∨
      eyeCorners g stone.color stone.coord = 2) :
    (g.check_eye stone = true ↔
      ∃ P c S,
        (((corner_points stone.coord).filter
            (fun p => is_coord_valid g.goban.size p)).filter
          (fun p => (g.goban.get_point p).is_empty)) = P ++ c :: S ∧
        (∀ p ∈ P, eyeAbort g stone.color p = false ∧
          ¬(eyeCorners g stone.color p = 3 ∨ eyeCorners g stone.color p = 2)) ∧
        eyeAbort g stone.color c = false ∧
        (eyeCorners g stone.color c = 3 ∨ eyeCorners g stone.color c = 2)) := by
  unfold Game.check_eye
  rw [hemp]
  simp only [Bool.false_eq_true, if_false]
  rw [hnb]
  simp only [Bool.false_eq_true, if_false]
  rcases hhc : g.helper_check_eye stone.coord stone.color with ⟨ca, cof⟩
  dsimp only
  have hcor : eyeCorners g stone.color stone.coord = ca + cof := by
    unfold eyeCorners
    rw [hhc]
  rw [hcor] at htal
  have h4 : ¬ ca + cof = 4 := by
    rcases htal with h | h <;> omega
  rw [if_neg h4, if_pos htal]
  exact check_eye_loop_iff g stone.color _

/-- The claim's corner predicate, following its words: the corner itself
has all (in-bounds) orthogonal neighbors of the eye color and a corner
tally of at least 2. -/
def specEyeCornerQualifies (g : Game) (color : Color) (p : Coord) : Bool :=
  !((g.goban.get_neighbors_points p).any (fun q => q.color ≠ some color)) &&
    decide (2 ≤ eyeCorners g color p)

def gm8 : Game :=
  { Game.new (5, 5) { flag_illegal := ⟨true, true, true, true⟩ } with
      goban := (Goban.new (5, 5)).push_many
        [(0, 1), (2, 1), (1, 0), (1, 2), (0, 0), (0, 2)] Color.black }

/-- C8 (counterexample to the claim as stated): `check_eye` answers true
at (1,1) although no empty diagonal corner qualifies under the claim's
recursive predicate. -/
theorem game_c8_check_eye_scan_cex :
    gm8.check_eye { coord := (1, 1), color := Color.black } = true ∧
      (((corner_points (1, 1)).filter
          (fun p => is_coord_valid gm8.goban.size p)).filter
        (fun p => (gm8.goban.get_point p).is_empty)).all
        (fun p => !specEyeCornerQualifies gm8 Color.black p) = true := by
  decide

theorem game_c8_check_eye_scan_witness :
    ((gm8.goban.get_color (1, 1)).isSome = false ∧
      (gm8.goban.get_neighbors_points (1, 1)).any
        (fun p => p.color ≠ some Color.black) = false ∧
      (eyeCorners gm8 Color.black (1, 1) = 3 ∨ eyeCorners gm8 Color.black (1, 1) = 2)) ∧
      (gm8.check_eye { coord := (1, 1), color := Color.black } = true ↔
        ∃ P c S,
          (((corner_points (1, 1)).filter
              (fun p => is_coord_valid gm8.goban.size p)).filter
            (fun p => (gm8.goban.get_point p).is_empty)) = P ++ c :: S ∧
          (∀ p ∈ P, eyeAbort gm8 Color.black p = false ∧
            ¬(eyeCorners gm8 Color.black p = 3 ∨ eyeCorners gm8 Color.black p = 2)) ∧
          eyeAbort gm8 Color.black c = false ∧
          (eyeCorners gm8 Color.black c = 3 ∨ eyeCorners gm8 Color.black c = 2)) :=
  ⟨⟨by decide, by decide, by decide⟩,
    game_c8_check_eye_scan gm8 { coord := (1, 1), color := Color.black }
      (by decide) (by decide) (by decide)⟩

theorem aux_fold_facts (color : Color) (oo : Prop) [Decidable oo] :
    ∀ (L : List Nat) (gc : Goban) (pr : Nat × Nat) (k : Option Coord),
      (L.foldl (Goban.remove_captured_stones_step color oo) (gc, pr, k)).1 =
        L.foldl (fun h dd => h.remove_chain dd) gc ∧
      (¬ oo → (L.foldl (Goban.remove_captured_stones_step color oo) (gc, pr, k)).2.2 = k)
  | [], gc, pr, k => ⟨rfl, fun _ => rfl⟩
  | idx :: L, gc, pr, k => by
    rw [List.foldl_cons, List.foldl_cons]
    have hstep : Goban.remove_captured_stones_step color oo (gc, pr, k) idx =
        (gc.remove_chain idx,
          (match color with
            | Color.white => (pr.1, pr.2 + (gc.chains.getD idx default).num_stones)
            | Color.black => (pr.1 + (gc.chains.getD idx default).num_stones, pr.2)),
          if (gc.chains.getD idx default).num_stones = 1 ∧ oo then
            some (one_to_2dim gc.size (gc.chains.getD idx default).origin)
          else k) := rfl
    rw [hstep]
    constructor
    · exact (aux_fold_facts color oo L _ _ _).1
    · intro hoo
      rw [if_neg (fun hand => hoo hand.2)]
      exact (aux_fold_facts color oo L _ _ _).2 hoo

/-- C1: in `remove_captured_stones_aux`, if exactly one (opposite-color)
chain died and it held exactly one stone, the returned ko point is the
now-empty coordinate of that stone; in every other case it is `none`;
and the suicide-removal branch never yields a ko point. -/
theorem goban_c1_ko_point (g : Goban) (hwf : GobanWF g) (color : Color) (sa : Bool)
    (pris : Nat × Nat) (dead : List Nat) (added : Nat) :
    (∀ d, dead = [d] → d < g.chains.length →
      (g.chains.getD d default).used = true →
      (g.chains.getD d default).num_stones = 1 →
      (sa = true → ((g.remove_chain d).chains.getD added default).num_stones ≠ 0) →
      (g.remove_captured_stones_aux color sa pris dead added).1.2 =
        some (one_to_2dim g.size (g.chains.getD d default).origin) ∧
      chainCells g d = [(g.chains.getD d default).origin] ∧
      cellColor (g.remove_captured_stones_aux color sa pris dead added).2
        ((g.chains.getD d default).origin) = none) ∧
    (¬(dead.length = 1 ∧
        (g.chains.getD (dead.headD 0) default).num_stones = 1) →
      (g.remove_captured_stones_aux color sa pris dead added).1.2 = none) ∧
    (sa = true →
      ((dead.foldl (fun h dd => h.remove_chain dd) g).chains.getD added
        default).num_stones = 0 →
      (g.remove_captured_stones_aux color sa pris dead added).1.2 = none) := by
  refine ⟨?_, ?_, ?_⟩
  · intro d hdead hdlt hdu hns hsuic
    subst hdead
    obtain ⟨L', hL⟩ := (hwf.cyc d hdlt hdu).head_eq
    have hlen1 : (chainCells g d).length = 1 := by
      rw [hwf.count d hdlt hdu, hns]
    have hcells : chainCells g d = [(g.chains.getD d default).origin] := by
      rw [hL] at hlen1 ⊢
      have hnil : L'.length = 0 := by simpa using hlen1
      rw [List.eq_nil_of_length_eq_zero hnil]
    have haux2 : (g.remove_captured_stones_aux color sa pris [d] added).2 =
        g.remove_chain d := by
      unfold Goban.remove_captured_stones_aux Goban.remove_captured_stones_step
      rw [List.foldl_cons, List.foldl_nil]
      dsimp only
      rw [if_neg (fun hand => hsuic hand.1 hand.2)]
    refine ⟨?_, hcells, ?_⟩
    · unfold Goban.remove_captured_stones_aux Goban.remove_captured_stones_step
      rw [List.foldl_cons, List.foldl_nil]
      dsimp only
      rw [if_pos (show (g.chains.getD d default).num_stones = 1 ∧ [d].length = 1 from
        ⟨hns, rfl⟩)]
      rw [if_neg (fun hand => hsuic hand.1 hand.2)]
    · rw [haux2]
      rw [(remove_chain_spec g hwf d hdlt hdu).2.2 ((g.chains.getD d default).origin)]
      rw [if_pos (show (g.chains.getD d default).origin ∈ chainCells g d by
        rw [hcells]
        exact List.mem_singleton.mpr rfl)]
  · intro hnot
    by_cases hlen : dead.length = 1
    · obtain ⟨d, hd⟩ : ∃ d, dead = [d] := by
        match dead, hlen with
        | [d], _ => exact ⟨d, rfl⟩
      subst hd
      have hns : ¬ (g.chains.getD d default).num_stones = 1 :=
        fun h1 => hnot ⟨rfl, h1⟩
      unfold Goban.remove_captured_stones_aux Goban.remove_captured_stones_step
      rw [List.foldl_cons, List.foldl_nil]
      dsimp only
      rw [if_neg (show ¬((g.chains.getD d default).num_stones = 1 ∧ [d].length = 1) from
        fun hand => hns hand.1)]
      by_cases hsb : sa = true ∧
          ((g.remove_chain d).chains.getD added default).num_stones = 0
      · rw [if_pos hsb]
      · rw [if_neg hsb]
    · have hko := (aux_fold_facts color (dead.length = 1) dead g pris none).2 hlen
      unfold Goban.remove_captured_stones_aux
      rcases hres : dead.foldl
          (Goban.remove_captured_stones_step color (dead.length = 1)) (g, pris, none)
        with ⟨g1, sr, kp⟩
      dsimp only
      rw [hres] at hko
      by_cases hsb : sa = true ∧ (g1.chains.getD added default).num_stones = 0
      · rw [if_pos hsb]
      · rw [if_neg hsb]
        exact hko
  · intro hsa h0
    have hg1 := (aux_fold_facts color (dead.length = 1) dead g pris none).1
    unfold Goban.remove_captured_stones_aux
    rcases hres : dead.foldl
        (Goban.remove_captured_stones_step color (dead.length = 1)) (g, pris, none)
      with ⟨g1, sr, kp⟩
    dsimp only
    rw [hres] at hg1
    have hand : sa = true ∧ (g1.chains.getD added default).num_stones = 0 := by
      refine ⟨hsa, ?_⟩
      have hg1' : g1 = dead.foldl (fun h dd => h.remove_chain dd) g := hg1
      rw [hg1']
      exact h0
    rw [if_pos hand]

def c1g : Goban := (Goban.new (5, 5)).push (1, 1) Color.white

theorem goban_c1_ko_point_witness :
    GobanWF c1g ∧
      ((∀ d, [0] = [d] → d < c1g.chains.length →
        (c1g.chains.getD d default).used = true →
        (c1g.chains.getD d default).num_stones = 1 →
        ((false : Bool) = true →
          ((c1g.remove_chain d).chains.getD 1 default).num_stones ≠ 0) →
        (c1g.remove_captured_stones_aux Color.black false (0, 0) [0] 1).1.2 =
          some (one_to_2dim c1g.size (c1g.chains.getD d default).origin) ∧
        chainCells c1g d = [(c1g.chains.getD d default).origin] ∧
        cellColor (c1g.remove_captured_stones_aux Color.black false (0, 0) [0] 1).2
          ((c1g.chains.getD d default).origin) = none) ∧
      (¬([0].length = 1 ∧ (c1g.chains.getD ([0].headD 0) default).num_stones = 1) →
        (c1g.remove_captured_stones_aux Color.black false (0, 0) [0] 1).1.2 = none) ∧
      ((false : Bool) = true →
        (([0].foldl (fun h dd => h.remove_chain dd) c1g).chains.getD 1
          default).num_stones = 0 →
        (c1g.remove_captured_stones_aux Color.black false (0, 0) [0] 1).1.2 = none)) :=
  have hwf : GobanWF c1g :=
    reachable_wf c1g (Reachable.push (Goban.new (5, 5)) (1, 1) Color.white
      (Reachable.new (5, 5) (by decide) (by decide)) (by decide) (by decide) (by decide))
  ⟨hwf, goban_c1_ko_point c1g hwf Color.black false (0, 0) [0] 1⟩
